import Mathlib

/-!
# Block message decoding of package `ipldbtc` (`parsing.go`)

A shallow embedding of `DecodeBlockMessage`, `mkMerkleTree` and `ReadBlock`.

* A byte stream (`bufio.Reader` over `bytes.NewReader(b)`) is the list of the
  bytes not yet consumed; a reader returns the value together with the rest.
* A Go call has one of four outcomes (`Outcome`): it returns a value with a nil
  error, it returns a non-nil error, it panics, or (only in the model) the
  iteration budget given to a `for` loop without a static bound runs out.
* Library values are kept structured: a multihash is its function code and its
  digest, a CID is its version, codec and multihash.
* The transaction type, `readTx`, `readVarint` and the `Cid()` methods are not
  part of `parsing.go`; they are the fields of `Env`.
* The transaction count `nTx` is a Go `int`, hence an `Int` here: the loop
  condition `i < nTx` is a signed comparison, and a negative count runs no
  iteration.
-/

namespace Ipldbtc

/-- A Go `byte`. -/
abbrev Byte := Fin 256

/-- A multihash (`mh.Multihash`): hash-function code and digest. -/
structure Multihash where
  code : Nat
  digest : List Byte
deriving DecidableEq, Repr

/-- A content address (`cid.Cid`). -/
structure Cid where
  version : Nat
  codec : Nat
  hash : Multihash
deriving DecidableEq, Repr

/-- The codec `cid.BitcoinBlock`. -/
def BitcoinBlock : Nat := 0xb0

/-- The codec `cid.BitcoinTx`. -/
def BitcoinTx : Nat := 0xb1

/-- The hash-function code `mh.DBL_SHA2_256`. -/
def DBL_SHA2_256 : Nat := 0x56

/-- The call `mh.Encode(buf, code)`: wraps a digest with its function code. -/
def mhEncode (buf : List Byte) (code : Nat) : Multihash :=
  { code := code, digest := buf }

/-- The call `cid.NewCidV1(codec, mhash)`. -/
def NewCidV1 (codec : Nat) (mhash : Multihash) : Cid :=
  { version := 1, codec := codec, hash := mhash }

/-- The header record `Block`, with the fields `ReadBlock` assigns. -/
structure Block where
  Version : Nat
  Parent : Cid
  MerkleRoot : Cid
  Timestamp : Nat
  Difficulty : Nat
  Nonce : Nat
deriving DecidableEq, Repr

/-- The pairing node `TxTree`; a `node.Link` is represented by its `Cid`. -/
structure TxTree where
  Left : Cid
  Right : Cid
deriving DecidableEq, Repr

/-- A value of the interface `node.Node`, by dynamic type. -/
inductive Node (Tx : Type) where
  | block (blk : Block)
  | tx (t : Tx)
  | tree (t : TxTree)
deriving DecidableEq, Repr

/-- An `error` value: one raised by a stream reader, or one built by
`fmt.Errorf` around a cause; `failedTx i nTx` stands for
`"failed to read tx(%d/%d): %s"` with the index and the signed count. -/
inductive Err where
  | io (msg : String)
  | failedTo (what : String) (cause : Err)
  | failedTx (i : Nat) (nTx : Int) (cause : Err)
deriving DecidableEq, Repr

/-- What a call does: return a value and a nil error, return a non-nil error,
panic, or exhaust the iteration budget of the model. -/
inductive Outcome (α : Type) where
  | ok (v : α)
  | error (e : Err)
  | panic
  | nofuel
deriving DecidableEq, Repr

/-- The parts of the package that `parsing.go` calls and does not define. -/
structure Env (Tx : Type) where
  /-- The call `readVarint(r)`: the decoded count as the Go `int` that
  `DecodeBlockMessage` receives (it compares `i < nTx` with `i := 0`), and the
  rest of the stream. The value may be negative: a 64-bit count of `2^63` or
  more does not fit an `int`. -/
  readVarint : List Byte → Except Err (Int × List Byte)
  /-- The call `readTx(r)`: one decoded transaction and the rest. -/
  readTx : List Byte → Except Err (Tx × List Byte)
  /-- The method `Cid()` of a node. -/
  cid : Node Tx → Cid

/-! ## `mkMerkleTree` -/

/-- The inner loop `for i := 0; i < len(layer)/2; i++` of `mkMerkleTree`, with
`k` iterations left to run from index `i`; `layer[..]` out of range panics. -/
def pairLoop {Tx : Type} (cid : Node Tx → Cid) (layer : List (Node Tx)) :
    Nat → Nat → List TxTree → List (Node Tx) → Outcome (List TxTree × List (Node Tx))
  | 0, _, out, next => .ok (out, next)
  | k + 1, i, out, next =>
    match layer[i * 2]?, layer[i * 2 + 1]? with
    | some left, some right =>
      let t : TxTree := { Left := cid left, Right := cid right }
      pairLoop cid layer k (i + 1) (out ++ [t]) (next ++ [Node.tree t])
    | _, _ => .panic

/-- The statement `if len(layer)%2 != 0 { layer = append(layer, layer[len(layer)-1]) }`. -/
def padLayer {α : Type} (layer : List α) : Outcome (List α) :=
  if layer.length % 2 ≠ 0 then
    match layer[layer.length - 1]? with
    | some x => .ok (layer ++ [x])
    | none => .panic
  else .ok layer

/-- The outer loop `for len(layer) > 1` of `mkMerkleTree`; one unit of fuel per
evaluation of the loop condition. -/
def mkMerkleTreeLoop {Tx : Type} (cid : Node Tx → Cid) :
    Nat → List (Node Tx) → List TxTree → Outcome (List TxTree)
  | 0, _, _ => .nofuel
  | fuel + 1, layer, out =>
    if 1 < layer.length then
      match padLayer layer with
      | .ok layer =>
        match pairLoop cid layer (layer.length / 2) 0 out [] with
        | .ok (out, next) => mkMerkleTreeLoop cid fuel next out
        | .error e => .error e
        | .panic => .panic
        | .nofuel => .nofuel
      | .error e => .error e
      | .panic => .panic
      | .nofuel => .nofuel
    else .ok out

/-- The function `mkMerkleTree(txs)`. The loop condition is evaluated at most
`len(txs) + 1` times, which is the budget given. -/
def mkMerkleTree {Tx : Type} (E : Env Tx) (txs : List (Node Tx)) : Outcome (List TxTree) :=
  mkMerkleTreeLoop E.cid (txs.length + 1) txs []

/-! ## `ReadBlock` -/

/-- Propagation of a reader's result through
`if err != nil { return nil, fmt.Errorf("failed to <what>: %s", err) }`. -/
def orFail {α : Type} (what : String) : Except Err α → Outcome α
  | .ok v => .ok v
  | .error err => .error (.failedTo what err)

/-- Sequencing of calls: the first outcome that is not a normal return ends
the function. -/
def Outcome.bind {α β : Type} (x : Outcome α) (f : α → Outcome β) : Outcome β :=
  match x with
  | .ok v => f v
  | .error e => .error e
  | .panic => .panic
  | .nofuel => .nofuel

instance : Monad Outcome where
  pure := Outcome.ok
  bind := Outcome.bind

/-- Modelled from the spec: `readFixedSlice(r, l)` is called by `ReadBlock` and
is not defined in `parsing.go`. It reads exactly `l` bytes or fails when the
stream is exhausted early; on success the cursor advances by exactly `l`. -/
def readFixedSlice (r : List Byte) (l : Nat) : Except Err (List Byte × List Byte) :=
  if l ≤ r.length then .ok (r.take l, r.drop l) else .error (.io "TruncatedStreamError")

/-- The call `binary.LittleEndian.Uint32(b)`:
`b[0] | b[1]<<8 | b[2]<<16 | b[3]<<24`, a panic on fewer than 4 bytes. -/
def Uint32 : List Byte → Outcome Nat
  | b0 :: b1 :: b2 :: b3 :: _ =>
    .ok (b0.val ||| b1.val <<< 8 ||| b2.val <<< 16 ||| b3.val <<< 24)
  | _ => .panic

/-- The conversion `byte(v)`. -/
def toByte (v : Nat) : Byte := ⟨v % 256, Nat.mod_lt v (by decide)⟩

/-- The call `binary.LittleEndian.PutUint32(buf, v)` on a fresh 4-byte buffer. -/
def PutUint32 (v : Nat) : List Byte :=
  [toByte v, toByte (v >>> 8), toByte (v >>> 16), toByte (v >>> 24)]

/-- Modelled from the spec: the method `header()` of `Block` is called by
`DecodeBlockMessage` and is not defined in `parsing.go`. It re-serializes the
header to its 80 bytes, the fields in the order they are read: version,
previous-block digest, merkle-root digest, timestamp, difficulty, nonce, the
integers as 4 little-endian bytes. -/
def Block.header (blk : Block) : List Byte :=
  PutUint32 blk.Version ++ blk.Parent.hash.digest ++ blk.MerkleRoot.hash.digest ++
    PutUint32 blk.Timestamp ++ PutUint32 blk.Difficulty ++ PutUint32 blk.Nonce

/-- The function `ReadBlock(r)`: the decoded header and the rest of the stream. -/
def ReadBlock (r : List Byte) : Outcome (Block × List Byte) := do
  let (version, r) ← orFail "read version" (readFixedSlice r 4)
  let version ← Uint32 version
  let (prevBlock, r) ← orFail "read prev_block" (readFixedSlice r 32)
  let blkhash := mhEncode prevBlock DBL_SHA2_256
  let parent := NewCidV1 BitcoinBlock blkhash
  let (merkleRoot, r) ← orFail "read merkle_root" (readFixedSlice r 32)
  let txroothash := mhEncode merkleRoot DBL_SHA2_256
  let merkleRootCid := NewCidV1 BitcoinTx txroothash
  let (timestamp, r) ← orFail "read timestamp" (readFixedSlice r 4)
  let timestamp ← Uint32 timestamp
  let (diff, r) ← orFail "read difficulty" (readFixedSlice r 4)
  let diff ← Uint32 diff
  let (nonce, r) ← orFail "read nonce" (readFixedSlice r 4)
  let nonce ← Uint32 nonce
  pure ({ Version := version, Parent := parent, MerkleRoot := merkleRootCid,
          Timestamp := timestamp, Difficulty := diff, Nonce := nonce }, r)

/-- The function `DecodeBlock(b)`. -/
def DecodeBlock (b : List Byte) : Outcome Block := do
  let (blk, _) ← ReadBlock b
  pure blk

/-! ## `DecodeBlockMessage` -/

/-- The slice expression `b[:n]`, a panic when `n` is out of range. -/
def sliceTo (b : List Byte) (n : Nat) : Outcome (List Byte) :=
  if n ≤ b.length then .ok (b.take n) else .panic

/-- The loop `for i := 0; i < nTx; i++` of `DecodeBlockMessage`, with `k`
iterations left to run from index `i`. The condition is a comparison of
signed integers, so the loop runs for the indices `0 ≤ i < nTx`: `nTx.toNat`
iterations, none when `nTx` is negative. -/
def readTxLoop {Tx : Type} (E : Env Tx) (nTx : Int) :
    Nat → Nat → List Byte → List (Node Tx) → Outcome (List (Node Tx) × List Byte)
  | 0, _, r, txs => .ok (txs, r)
  | k + 1, i, r, txs =>
    match E.readTx r with
    | .error err => .error (.failedTx i nTx err)
    | .ok (tx, r) => readTxLoop E nTx k (i + 1) r (txs ++ [Node.tx tx])

/-- The function `DecodeBlockMessage(b)`. -/
def DecodeBlockMessage {Tx : Type} (E : Env Tx) (b : List Byte) : Outcome (List (Node Tx)) := do
  let (blk, r) ← match ReadBlock b with
    | .error err => Outcome.error (.failedTo "read block header" err)
    | other => other
  let first ← sliceTo b 80
  if blk.header ≠ first then Outcome.panic else
  let (nTx, r) ← orFail "read tx_count" (E.readVarint r)
  let (txs, _) ← readTxLoop E nTx nTx.toNat 0 r []
  let txtrees ← match mkMerkleTree E txs with
    | .error err => Outcome.error (.failedTo "mk merkle tree" err)
    | other => other
  pure (Node.block blk :: txs ++ txtrees.map Node.tree)

/-! ## A small environment for evaluating the decoder -/

/-- One-byte transaction counts (0 to 255) and one-byte transactions, over any
`Cid()`. -/
def byteEnv (cid : Node Byte → Cid) : Env Byte where
  readVarint r := match r with
    | [] => .error (.io "TruncatedStreamError")
    | n :: r => .ok ((n.val : Int), r)
  readTx r := match r with
    | [] => .error (.io "TruncatedStreamError")
    | t :: r => .ok (t, r)
  cid := cid

/-- The little-endian value of a byte string of any length. -/
def leValue : List Byte → Nat
  | [] => 0
  | b :: rest => b.val + 256 * leValue rest

/-- Modelled from the spec: the unsigned value that `readVarint` decodes
(`readVarint` is not defined in `parsing.go`). A leading byte below the
threshold is the value itself; the three reserved leading bytes, `0xfd`,
`0xfe` and `0xff` in the chain's wire format, select a 16-, 32- or 64-bit
little-endian payload; too few bytes is an error. -/
def varintValue : List Byte → Except Err (Nat × List Byte)
  | [] => .error (.io "TruncatedStreamError")
  | d :: r =>
    if d.val < 0xfd then .ok (d.val, r)
    else
      let width := if d.val = 0xfd then 2 else if d.val = 0xfe then 4 else 8
      if width ≤ r.length then .ok (leValue (r.take width), r.drop width)
      else .error (.io "TruncatedStreamError")

/-- The conversion `int(v)` of a 64-bit unsigned value to a Go `int`. -/
def toGoInt (v : Nat) : Int :=
  if v % 2 ^ 64 < 2 ^ 63 then ((v % 2 ^ 64 : Nat) : Int) else ((v % 2 ^ 64 : Nat) : Int) - 2 ^ 64

/-- Wire-format transaction counts, converted to `int`, and one-byte
transactions, over any `Cid()`. -/
def wireEnv (cid : Node Byte → Cid) : Env Byte where
  readVarint r := match varintValue r with
    | .error e => .error e
    | .ok (v, r) => .ok (toGoInt v, r)
  readTx r := match r with
    | [] => .error (.io "TruncatedStreamError")
    | t :: r => .ok (t, r)
  cid := cid

/-- Addresses whose digest is the addressed bytes themselves. -/
def plainCid : Node Byte → Cid
  | .block blk => NewCidV1 BitcoinBlock (mhEncode blk.header DBL_SHA2_256)
  | .tx t => NewCidV1 BitcoinTx (mhEncode [t] DBL_SHA2_256)
  | .tree t => NewCidV1 BitcoinTx (mhEncode (t.Left.hash.digest ++ t.Right.hash.digest) DBL_SHA2_256)

/-! ## The tree builder as the specification words it -/

/-- A layer with a copy of its last element appended when its length is odd. -/
def specPad {α : Type} (l : List α) : List α :=
  match l.getLast? with
  | some x => if l.length % 2 = 1 then l ++ [x] else l
  | none => l

/-- One `TxTree` for each `i < len/2`, linking elements `2i` and `2i+1`. -/
def specPairs {α : Type} (cid : α → Cid) (l : List α) : List TxTree :=
  (List.finRange (l.length / 2)).map fun i =>
    { Left := cid (l.get ⟨2 * i.val, by have := i.isLt; omega⟩),
      Right := cid (l.get ⟨2 * i.val + 1, by have := i.isLt; omega⟩) }

/-- The internal layers, bottom layer first: while the layer has more than one
element, the pairs of the padded layer, followed by the layers above them. -/
def specTree {Tx : Type} (cid : Node Tx → Cid) (l : List (Node Tx)) : List TxTree :=
  if _h : 1 < l.length then
    specPairs cid (specPad l) ++ specTree cid ((specPairs cid (specPad l)).map Node.tree)
  else []
termination_by l.length
decreasing_by
  simp only [List.length_map, specPairs, List.length_finRange]
  have hpad : (specPad l).length ≤ l.length + 1 := by
    unfold specPad
    split
    · split <;> simp
    · simp
  omega

/-- The single element that remains when the pairing rule is applied until
one element is left: the top node of the tree, or the only leaf; `none` when
there is no leaf. -/
def specRoot {Tx : Type} (cid : Node Tx → Cid) (l : List (Node Tx)) : Option (Node Tx) :=
  if _h : 1 < l.length then
    specRoot cid ((specPairs cid (specPad l)).map Node.tree)
  else l.head?
termination_by l.length
decreasing_by
  simp only [List.length_map, specPairs, List.length_finRange]
  have hpad : (specPad l).length ≤ l.length + 1 := by
    unfold specPad
    split
    · split <;> simp
    · simp
  omega

/-- The little-endian value of four bytes. -/
def le32 (b0 b1 b2 b3 : Byte) : Nat :=
  b0.val + 256 * b1.val + 65536 * b2.val + 16777216 * b3.val

/-- The first `n` transactions of a stream, decoded one after the other in
stream order; `none` when one of them does not decode. -/
def specTxs {Tx : Type} (E : Env Tx) : Nat → List Byte → Option (List Tx × List Byte)
  | 0, r => some ([], r)
  | n + 1, r =>
    match E.readTx r with
    | .error _ => none
    | .ok (t, r) =>
      match specTxs E n r with
      | none => none
      | some (ts, r) => some (t :: ts, r)

/-! ## Sample messages -/

/-- The bytes `0, 1, …, 83`: a header followed by four more bytes. -/
def msgCount : List Byte :=
  [0, 1, 2, 3, 4, 5, 6, 7, 8, 9, 10, 11, 12, 13, 14, 15, 16, 17, 18, 19, 20, 21, 22,
   23, 24, 25, 26, 27, 28, 29, 30, 31, 32, 33, 34, 35, 36, 37, 38, 39, 40, 41, 42, 43,
   44, 45, 46, 47, 48, 49, 50, 51, 52, 53, 54, 55, 56, 57, 58, 59, 60, 61, 62, 63, 64,
   65, 66, 67, 68, 69, 70, 71, 72, 73, 74, 75, 76, 77, 78, 79, 80, 81, 82, 83]

/-- An all-zero header declaring no transaction. -/
def msgEmpty : List Byte := List.replicate 80 0 ++ [0]

/-- An all-zero header followed by one transaction, the byte `7`. -/
def msgOneA : List Byte := List.replicate 80 0 ++ [1, 7]

/-- The message `msgOneA` with byte 36, the first of the merkle-root digest,
set to `1`. -/
def msgOneB : List Byte := List.replicate 36 0 ++ [1] ++ List.replicate 43 0 ++ [1, 7]

/-- An all-zero header followed by three transactions. -/
def msgThree : List Byte := List.replicate 80 0 ++ [3, 10, 20, 30]

/-- An all-zero header followed by four transactions. -/
def msgFour : List Byte := List.replicate 80 0 ++ [4, 10, 20, 30, 40]

/-- A stream of 79 bytes, one short of a header. -/
def msgShort : List Byte := List.replicate 79 0

/-- An all-zero header with nothing after it: the count cannot be read. -/
def msgNoCount : List Byte := List.replicate 80 0

/-- An all-zero header declaring three transactions and holding only one. -/
def msgCutTx : List Byte := List.replicate 80 0 ++ [3, 10]

/-- Three leaves, the one-byte transactions `1, 2, 3`. -/
def leavesThree : List (Node Byte) := [Node.tx 1, Node.tx 2, Node.tx 3]

/-- The nodes above `leavesThree`: the pair (0,1), the pair (2,2), the root. -/
def treeThree : List TxTree :=
  [⟨plainCid (.tx 1), plainCid (.tx 2)⟩, ⟨plainCid (.tx 3), plainCid (.tx 3)⟩,
   ⟨plainCid (.tree ⟨plainCid (.tx 1), plainCid (.tx 2)⟩),
    plainCid (.tree ⟨plainCid (.tx 3), plainCid (.tx 3)⟩)⟩]

/-- The message `msgFour` with byte 36, the first of the merkle-root digest,
set to `1`. -/
def msgFourB : List Byte :=
  List.replicate 36 0 ++ [1] ++ List.replicate 43 0 ++ [4, 10, 20, 30, 40]

/-- An all-zero header followed by the 9-byte count `2^63` and nothing else. -/
def msgHuge : List Byte := List.replicate 80 0 ++ [0xff, 0, 0, 0, 0, 0, 0, 0, 0x80]

/-- The header decoded from 80 zero bytes. -/
def zeroHeader : Block :=
  { Version := 0,
    Parent := NewCidV1 BitcoinBlock (mhEncode (List.replicate 32 0) DBL_SHA2_256),
    MerkleRoot := NewCidV1 BitcoinTx (mhEncode (List.replicate 32 0) DBL_SHA2_256),
    Timestamp := 0, Difficulty := 0, Nonce := 0 }

/-! ## Properties of `mkMerkleTree` -/

/-- The padding statement never panics and pads as the specification says. -/
theorem padLayer_eq_specPad {α : Type} (l : List α) : padLayer l = .ok (specPad l) := by
  unfold padLayer specPad
  rw [List.getLast?_eq_getElem?]
  by_cases hodd : l.length % 2 = 1
  · have hlt : l.length - 1 < l.length := by omega
    have hne : l.length % 2 ≠ 0 := by omega
    simp [List.getElem?_eq_getElem hlt, hodd]
  · have hz : l.length % 2 = 0 := by omega
    cases h : l[l.length - 1]? <;> simp [hz]

/-- Length of a padded layer. -/
theorem specPad_length {α : Type} (l : List α) :
    (specPad l).length = l.length + l.length % 2 := by
  unfold specPad
  rw [List.getLast?_eq_getElem?]
  by_cases hodd : l.length % 2 = 1
  · have hlt : l.length - 1 < l.length := by omega
    simp [List.getElem?_eq_getElem hlt, hodd]
  · have hz : l.length % 2 = 0 := by omega
    cases h : l[l.length - 1]? <;> simp [hz]

/-- Number of pairs made from a layer. -/
theorem specPairs_length {α : Type} (cid : α → Cid) (l : List α) :
    (specPairs cid l).length = l.length / 2 := by
  simp [specPairs]

/-- The pair at position `i` links elements `2i` and `2i+1`. -/
theorem specPairs_getElem {α : Type} (cid : α → Cid) (l : List α) (i : Nat)
    (h : i < (specPairs cid l).length) (h0 : 2 * i < l.length) (h1 : 2 * i + 1 < l.length) :
    (specPairs cid l)[i] = { Left := cid l[2 * i], Right := cid l[2 * i + 1] } := by
  simp [specPairs]

/-- The inner loop run for `k` iterations from index `i` appends the pairs
`i, …, i+k-1` of the layer to both accumulators, and does not panic. -/
theorem pairLoop_eq {Tx : Type} (cid : Node Tx → Cid) (layer : List (Node Tx)) :
    ∀ (k i : Nat) (out : List TxTree) (next : List (Node Tx)), i + k ≤ layer.length / 2 →
      pairLoop cid layer k i out next =
        .ok (out ++ ((specPairs cid layer).drop i).take k,
             next ++ (((specPairs cid layer).drop i).take k).map Node.tree) := by
  intro k
  induction k with
  | zero => intro i out next _; simp [pairLoop]
  | succ k ih =>
    intro i out next hk
    have h0 : i * 2 < layer.length := by omega
    have h1 : i * 2 + 1 < layer.length := by omega
    have hi : i < (specPairs cid layer).length := by rw [specPairs_length]; omega
    have hget := specPairs_getElem cid layer i hi (by omega) (by omega)
    have h2 : 2 * i = i * 2 := by omega
    simp only [h2] at hget
    rw [pairLoop, List.getElem?_eq_getElem h0, List.getElem?_eq_getElem h1]
    simp only
    rw [ih (i + 1) _ _ (by omega), List.drop_eq_getElem_cons hi, hget]
    simp

/-- With more fuel than the layer is long, the outer loop returns the nodes
collected so far followed by the internal layers above `layer`. -/
theorem mkMerkleTreeLoop_eq {Tx : Type} (cid : Node Tx → Cid) :
    ∀ (fuel : Nat) (layer : List (Node Tx)) (out : List TxTree), layer.length < fuel →
      mkMerkleTreeLoop cid fuel layer out = .ok (out ++ specTree cid layer) := by
  intro fuel
  induction fuel with
  | zero => intro layer out h; omega
  | succ fuel ih =>
    intro layer out h
    rw [mkMerkleTreeLoop, specTree]
    by_cases hlen : 1 < layer.length
    · have hp := specPad_length layer
      have hk : 0 + (specPad layer).length / 2 ≤ (specPad layer).length / 2 := by omega
      simp only [hlen, if_true, dite_true, padLayer_eq_specPad]
      rw [pairLoop_eq cid (specPad layer) _ 0 out [] hk]
      have hall : List.take ((specPad layer).length / 2) (specPairs cid (specPad layer)) =
          specPairs cid (specPad layer) :=
        List.take_of_length_le (by rw [specPairs_length])
      simp only [List.drop_zero, hall, List.nil_append]
      rw [ih _ _ (by rw [List.length_map, specPairs_length]; omega), List.append_assoc]
    · simp [hlen]

/-- The refinement behind C1, for any node list. -/
theorem mkMerkleTree_eq_specTree {Tx : Type} (E : Env Tx) (txs : List (Node Tx)) :
    mkMerkleTree E txs = .ok (specTree E.cid txs) := by
  unfold mkMerkleTree
  rw [mkMerkleTreeLoop_eq E.cid _ txs [] (by omega)]
  simp


/-! ## Properties of `ReadBlock` -/

/-- The bitwise `Uint32` of four bytes is their little-endian value. -/
theorem Uint32_quad (b0 b1 b2 b3 : Byte) (rest : List Byte) :
    Uint32 (b0 :: b1 :: b2 :: b3 :: rest) = .ok (le32 b0 b1 b2 b3) := by
  have h0 := b0.isLt
  have h1 := b1.isLt
  have h2 := b2.isLt
  have h3 := b3.isLt
  simp only [Uint32, le32, Nat.shiftLeft_eq]
  congr 1
  have e1 : b0.val ||| b1.val * 2 ^ 8 = 2 ^ 8 * b1.val + b0.val := by
    rw [Nat.or_comm, Nat.mul_comm, ← Nat.mul_add_lt_is_or (by omega)]
  have e2 : (2 ^ 8 * b1.val + b0.val) ||| b2.val * 2 ^ 16
      = 2 ^ 16 * b2.val + (2 ^ 8 * b1.val + b0.val) := by
    rw [Nat.or_comm, Nat.mul_comm, ← Nat.mul_add_lt_is_or (by omega)]
  have e3 : (2 ^ 16 * b2.val + (2 ^ 8 * b1.val + b0.val)) ||| b3.val * 2 ^ 24
      = 2 ^ 24 * b3.val + (2 ^ 16 * b2.val + (2 ^ 8 * b1.val + b0.val)) := by
    rw [Nat.or_comm, Nat.mul_comm, ← Nat.mul_add_lt_is_or (by omega)]
  rw [e1, e2, e3]
  omega

/-- Writing a little-endian value back gives the four bytes it was read from. -/
theorem PutUint32_le32 (b0 b1 b2 b3 : Byte) :
    PutUint32 (le32 b0 b1 b2 b3) = [b0, b1, b2, b3] := by
  have h0 := b0.isLt
  have h1 := b1.isLt
  have h2 := b2.isLt
  have h3 := b3.isLt
  simp only [PutUint32, le32, toByte, Nat.shiftRight_eq_div_pow]
  congr 1
  · apply Fin.ext; simp only; omega
  congr 1
  · apply Fin.ext; simp only; omega
  congr 1
  · apply Fin.ext; simp only; omega
  congr 1
  · apply Fin.ext; simp only; omega

/-- The four bytes of a stream at offset `off`. -/
theorem take4_drop (b : List Byte) (off : Nat) (h : off + 4 ≤ b.length) :
    (b.drop off).take 4 = [b[off], b[off + 1], b[off + 2], b[off + 3]] := by
  rw [List.drop_eq_getElem_cons (by omega), List.drop_eq_getElem_cons (by omega),
    List.drop_eq_getElem_cons (by omega), List.drop_eq_getElem_cons (by omega)]
  rfl


/-- With enough bytes left, `readFixedSlice` returns the next `l` bytes. -/
theorem readFixedSlice_ok (r : List Byte) (l : Nat) (h : l ≤ r.length) :
    readFixedSlice r l = .ok (r.take l, r.drop l) := by
  simp [readFixedSlice, h]

/-- The header that `ReadBlock` returns on a stream of at least 80 bytes, field
by field, and the rest of the stream. -/
theorem ReadBlock_of_length (b : List Byte) (h : 80 ≤ b.length) :
    ReadBlock b = .ok
      ({ Version := le32 b[0] b[1] b[2] b[3],
         Parent := NewCidV1 BitcoinBlock (mhEncode ((b.drop 4).take 32) DBL_SHA2_256),
         MerkleRoot := NewCidV1 BitcoinTx (mhEncode ((b.drop 36).take 32) DBL_SHA2_256),
         Timestamp := le32 b[68] b[69] b[70] b[71],
         Difficulty := le32 b[72] b[73] b[74] b[75],
         Nonce := le32 b[76] b[77] b[78] b[79] }, b.drop 80) := by
  have t0 := take4_drop b 0 (by omega)
  have t1 := take4_drop b 68 (by omega)
  have t2 := take4_drop b 72 (by omega)
  have t3 := take4_drop b 76 (by omega)
  rw [List.drop_zero] at t0
  simp only [ReadBlock, bind, Outcome.bind, pure]
  rw [readFixedSlice_ok b 4 (by omega)]
  simp only [orFail]
  rw [readFixedSlice_ok (b.drop 4) 32 (by rw [List.length_drop]; omega)]
  simp only [List.drop_drop]
  rw [readFixedSlice_ok (b.drop 36) 32 (by rw [List.length_drop]; omega)]
  simp only [List.drop_drop]
  rw [readFixedSlice_ok (b.drop 68) 4 (by rw [List.length_drop]; omega)]
  simp only [List.drop_drop]
  rw [readFixedSlice_ok (b.drop 72) 4 (by rw [List.length_drop]; omega)]
  simp only [List.drop_drop]
  rw [readFixedSlice_ok (b.drop 76) 4 (by rw [List.length_drop]; omega)]
  simp only [List.drop_drop, t0, t1, t2, t3, Uint32_quad]

/-- With too few bytes left, `readFixedSlice` fails. -/
theorem readFixedSlice_err (r : List Byte) (l : Nat) (h : r.length < l) :
    readFixedSlice r l = .error (.io "TruncatedStreamError") := by
  have : ¬ l ≤ r.length := by omega
  simp [readFixedSlice, this]

/-- On fewer than 80 bytes one of the six reads of `ReadBlock` fails. -/
theorem ReadBlock_short (b : List Byte) (h : b.length < 80) : ∃ e, ReadBlock b = .error e := by
  simp only [ReadBlock, bind, Outcome.bind, pure]
  by_cases h4 : 4 ≤ b.length
  swap
  · rw [readFixedSlice_err b 4 (by omega)]; exact ⟨_, rfl⟩
  have t0 := take4_drop b 0 (by omega)
  rw [List.drop_zero] at t0
  rw [readFixedSlice_ok b 4 h4]
  simp only [orFail, t0, Uint32_quad]
  by_cases h36 : 36 ≤ b.length
  swap
  · rw [readFixedSlice_err (b.drop 4) 32 (by rw [List.length_drop]; omega)]; exact ⟨_, rfl⟩
  rw [readFixedSlice_ok (b.drop 4) 32 (by rw [List.length_drop]; omega)]
  simp only [List.drop_drop]
  by_cases h68 : 68 ≤ b.length
  swap
  · rw [readFixedSlice_err (b.drop 36) 32 (by rw [List.length_drop]; omega)]; exact ⟨_, rfl⟩
  rw [readFixedSlice_ok (b.drop 36) 32 (by rw [List.length_drop]; omega)]
  simp only [List.drop_drop]
  by_cases h72 : 72 ≤ b.length
  swap
  · rw [readFixedSlice_err (b.drop 68) 4 (by rw [List.length_drop]; omega)]; exact ⟨_, rfl⟩
  rw [readFixedSlice_ok (b.drop 68) 4 (by rw [List.length_drop]; omega)]
  simp only [List.drop_drop, take4_drop b 68 (by omega), Uint32_quad]
  by_cases h76 : 76 ≤ b.length
  swap
  · rw [readFixedSlice_err (b.drop 72) 4 (by rw [List.length_drop]; omega)]; exact ⟨_, rfl⟩
  rw [readFixedSlice_ok (b.drop 72) 4 (by rw [List.length_drop]; omega)]
  simp only [List.drop_drop, take4_drop b 72 (by omega), Uint32_quad]
  rw [readFixedSlice_err (b.drop 76) 4 (by rw [List.length_drop]; omega)]
  exact ⟨_, rfl⟩

/-- A stream on which `ReadBlock` returns a header holds at least 80 bytes. -/
theorem ReadBlock_ok_length (b : List Byte) (p : Block × List Byte)
    (h : ReadBlock b = .ok p) : 80 ≤ b.length := by
  by_contra hlt
  obtain ⟨e, he⟩ := ReadBlock_short b (by omega)
  rw [he] at h
  cases h

/-- The first 80 bytes, cut at the six field boundaries. -/
theorem take80_split (b : List Byte) :
    b.take 80 = b.take 4 ++ (b.drop 4).take 32 ++ (b.drop 36).take 32 ++ (b.drop 68).take 4
      ++ (b.drop 72).take 4 ++ (b.drop 76).take 4 := by
  have e1 := List.take_add b 76 4
  have e2 := List.take_add b 72 4
  have e3 := List.take_add b 68 4
  have e4 := List.take_add b 36 32
  have e5 := List.take_add b 4 32
  simp only [Nat.reduceAdd] at e1 e2 e3 e4 e5
  rw [e1, e2, e3, e4, e5]

/-- Re-serializing the decoded header gives back the first 80 bytes read. -/
theorem header_roundtrip (b : List Byte) (blk : Block) (r : List Byte)
    (h : ReadBlock b = .ok (blk, r)) : blk.header = b.take 80 := by
  have hlen := ReadBlock_ok_length b _ h
  rw [ReadBlock_of_length b hlen] at h
  injection h with h
  injection h with hb hr
  subst hb
  have t0 := take4_drop b 0 (by omega)
  rw [List.drop_zero] at t0
  simp only [Block.header, PutUint32_le32, NewCidV1, mhEncode]
  rw [take80_split, t0, take4_drop b 68 (by omega), take4_drop b 72 (by omega),
    take4_drop b 76 (by omega)]

/-- The header read from a stream is the one read from its first 80 bytes. -/
theorem ReadBlock_take (b : List Byte) (h : 80 ≤ b.length) :
    ∃ blk, ReadBlock (b.take 80) = .ok (blk, []) ∧ ReadBlock b = .ok (blk, b.drop 80) := by
  have hl : 80 ≤ (b.take 80).length := by rw [List.length_take]; omega
  have h1 := ReadBlock_of_length (b.take 80) hl
  have h2 := ReadBlock_of_length b h
  have hd : (b.take 80).drop 80 = [] := List.drop_eq_nil_of_le (by rw [List.length_take]; omega)
  refine ⟨_, ?_, h2⟩
  rw [h1, hd]
  simp [List.getElem_take, List.drop_take, List.take_take]

/-! ## Properties of `DecodeBlockMessage` -/

/-- The transaction loop returns exactly when the next `k` transactions all
decode, and then appends them, in stream order, to the accumulator. -/
theorem readTxLoop_ok_iff {Tx : Type} (E : Env Tx) (nTx : Int) :
    ∀ (k i : Nat) (r : List Byte) (acc txs : List (Node Tx)) (r2 : List Byte),
      readTxLoop E nTx k i r acc = .ok (txs, r2) ↔
        ∃ ts, specTxs E k r = some (ts, r2) ∧ txs = acc ++ ts.map Node.tx := by
  intro k
  induction k with
  | zero =>
    intro i r acc txs r2
    simp only [readTxLoop, specTxs, Outcome.ok.injEq, Prod.mk.injEq, Option.some.injEq]
    constructor
    · rintro ⟨h1, h2⟩
      exact ⟨[], ⟨rfl, h2⟩, by simp [h1]⟩
    · rintro ⟨ts, ⟨h1, h2⟩, h3⟩
      subst h1
      simp [h3, h2]
  | succ k ih =>
    intro i r acc txs r2
    rw [readTxLoop, specTxs]
    cases hr : E.readTx r with
    | error err => simp
    | ok p =>
      obtain ⟨t, r1⟩ := p
      simp only
      rw [ih]
      constructor
      · rintro ⟨ts, h1, h2⟩
        refine ⟨t :: ts, ?_, ?_⟩
        · simp [h1]
        · simp [h2]
      · rintro ⟨ts, h1, h2⟩
        cases hs : specTxs E k r1 with
        | none => simp [hs] at h1
        | some q =>
          obtain ⟨ts1, r3⟩ := q
          simp only [hs, Option.some.injEq, Prod.mk.injEq] at h1
          obtain ⟨h1a, h1b⟩ := h1
          subst h1a h1b
          exact ⟨ts1, rfl, by simp [h2]⟩

/-- Decoding `n` transactions yields `n` transactions. -/
theorem specTxs_length {Tx : Type} (E : Env Tx) :
    ∀ (n : Nat) (r : List Byte) (ts : List Tx) (r2 : List Byte),
      specTxs E n r = some (ts, r2) → ts.length = n := by
  intro n
  induction n with
  | zero =>
    intro r ts r2 h
    simp only [specTxs, Option.some.injEq, Prod.mk.injEq] at h
    simp [← h.1]
  | succ n ih =>
    intro r ts r2 h
    rw [specTxs] at h
    cases hr : E.readTx r with
    | error err => simp [hr] at h
    | ok p =>
      obtain ⟨t, r1⟩ := p
      simp only [hr] at h
      cases hs : specTxs E n r1 with
      | none => simp [hs] at h
      | some q =>
        obtain ⟨ts1, r3⟩ := q
        simp only [hs, Option.some.injEq, Prod.mk.injEq] at h
        rw [← h.1, List.length_cons, ih r1 ts1 r3 hs]

/-- When the header, the count and the transactions are read, the decoder
returns the header, the transactions and the tree nodes, in this order. -/
theorem DecodeBlockMessage_of_reads {Tx : Type} (E : Env Tx) (b : List Byte) (blk : Block)
    (r r1 r2 : List Byte) (nTx : Int) (txs : List (Node Tx))
    (h1 : ReadBlock b = .ok (blk, r)) (h2 : E.readVarint r = .ok (nTx, r1))
    (h3 : readTxLoop E nTx nTx.toNat 0 r1 [] = .ok (txs, r2)) :
    DecodeBlockMessage E b =
      .ok (Node.block blk :: txs ++ (specTree E.cid txs).map Node.tree) := by
  have hlen := ReadBlock_ok_length b _ h1
  have hrt := header_roundtrip b blk r h1
  simp [DecodeBlockMessage, bind, Outcome.bind, pure, h1, sliceTo, hlen, hrt, h2, orFail, h3,
    mkMerkleTree_eq_specTree]

/-- A successful decode went through every phase. -/
theorem DecodeBlockMessage_ok_inv {Tx : Type} (E : Env Tx) (b : List Byte)
    (out : List (Node Tx)) (h : DecodeBlockMessage E b = .ok out) :
    ∃ blk r nTx r1 txs r2, ReadBlock b = .ok (blk, r) ∧ E.readVarint r = .ok (nTx, r1) ∧
      readTxLoop E nTx nTx.toNat 0 r1 [] = .ok (txs, r2) ∧
      out = Node.block blk :: txs ++ (specTree E.cid txs).map Node.tree := by
  cases hR : ReadBlock b with
  | error e => simp [DecodeBlockMessage, bind, Outcome.bind, hR] at h
  | panic => simp [DecodeBlockMessage, bind, Outcome.bind, hR] at h
  | nofuel => simp [DecodeBlockMessage, bind, Outcome.bind, hR] at h
  | ok p =>
    obtain ⟨blk, r⟩ := p
    cases hV : E.readVarint r with
    | error e =>
      have hlen := ReadBlock_ok_length b _ hR
      have hrt := header_roundtrip b blk r hR
      simp [DecodeBlockMessage, bind, Outcome.bind, hR, sliceTo, hlen, hrt, hV, orFail] at h
    | ok q =>
      obtain ⟨nTx, r1⟩ := q
      cases hT : readTxLoop E nTx nTx.toNat 0 r1 [] with
      | error e =>
        have hlen := ReadBlock_ok_length b _ hR
        have hrt := header_roundtrip b blk r hR
        simp [DecodeBlockMessage, bind, Outcome.bind, hR, sliceTo, hlen, hrt, hV, orFail, hT] at h
      | panic =>
        have hlen := ReadBlock_ok_length b _ hR
        have hrt := header_roundtrip b blk r hR
        simp [DecodeBlockMessage, bind, Outcome.bind, hR, sliceTo, hlen, hrt, hV, orFail, hT] at h
      | nofuel =>
        have hlen := ReadBlock_ok_length b _ hR
        have hrt := header_roundtrip b blk r hR
        simp [DecodeBlockMessage, bind, Outcome.bind, hR, sliceTo, hlen, hrt, hV, orFail, hT] at h
      | ok w =>
        obtain ⟨txs, r2⟩ := w
        have hd := DecodeBlockMessage_of_reads E b blk r r1 r2 nTx txs hR hV hT
        rw [hd] at h
        injection h with h
        exact ⟨blk, r, nTx, r1, txs, r2, rfl, hV, hT, h.symm⟩

/-- The transaction loop either reads all `k` transactions, or stops at the
first one that does not decode, `j` places after its starting index, with the
error tagged by that index and the declared count. -/
theorem readTxLoop_cases {Tx : Type} (E : Env Tx) (nTx : Int) :
    ∀ (k i : Nat) (r : List Byte) (acc : List (Node Tx)),
      (∃ ts r2, specTxs E k r = some (ts, r2) ∧
        readTxLoop E nTx k i r acc = .ok (acc ++ ts.map Node.tx, r2)) ∨
      (∃ j ts rj e, j < k ∧ specTxs E j r = some (ts, rj) ∧ E.readTx rj = .error e ∧
        specTxs E k r = none ∧
        readTxLoop E nTx k i r acc = .error (.failedTx (i + j) nTx e)) := by
  intro k
  induction k with
  | zero =>
    intro i r acc
    exact Or.inl ⟨[], r, rfl, by simp [readTxLoop]⟩
  | succ k ih =>
    intro i r acc
    cases hr : E.readTx r with
    | error e =>
      refine Or.inr ⟨0, [], r, e, by omega, rfl, hr, ?_, ?_⟩
      · simp [specTxs, hr]
      · simp [readTxLoop, hr]
    | ok p =>
      obtain ⟨t, r1⟩ := p
      rcases ih (i + 1) r1 (acc ++ [Node.tx t]) with ⟨ts, r2, hs, hl⟩ | ⟨j, ts, rj, e, hj, hs, he, hn, hl⟩
      · refine Or.inl ⟨t :: ts, r2, ?_, ?_⟩
        · simp [specTxs, hr, hs]
        · simp [readTxLoop, hr, hl]
      · refine Or.inr ⟨j + 1, t :: ts, rj, e, by omega, ?_, he, ?_, ?_⟩
        · simp [specTxs, hr, hs]
        · simp [specTxs, hr, hn]
        · simp only [readTxLoop, hr, hl]
          congr 2
          omega

/-- A failed header read ends the decoder with the error tagged
"read block header". -/
theorem DecodeBlockMessage_header_err {Tx : Type} (E : Env Tx) (b : List Byte) (e : Err)
    (h : ReadBlock b = .error e) :
    DecodeBlockMessage E b = .error (.failedTo "read block header" e) := by
  simp [DecodeBlockMessage, bind, Outcome.bind, h]

/-- A failed count read ends the decoder with the error tagged "read tx_count". -/
theorem DecodeBlockMessage_count_err {Tx : Type} (E : Env Tx) (b : List Byte) (blk : Block)
    (r : List Byte) (e : Err) (h1 : ReadBlock b = .ok (blk, r))
    (h2 : E.readVarint r = .error e) :
    DecodeBlockMessage E b = .error (.failedTo "read tx_count" e) := by
  have hlen := ReadBlock_ok_length b _ h1
  have hrt := header_roundtrip b blk r h1
  simp [DecodeBlockMessage, bind, Outcome.bind, h1, sliceTo, hlen, hrt, h2, orFail]

/-- A failed transaction loop ends the decoder with the loop's error. -/
theorem DecodeBlockMessage_tx_err {Tx : Type} (E : Env Tx) (b : List Byte) (blk : Block)
    (r r1 : List Byte) (nTx : Int) (e : Err) (h1 : ReadBlock b = .ok (blk, r))
    (h2 : E.readVarint r = .ok (nTx, r1))
    (h3 : readTxLoop E nTx nTx.toNat 0 r1 [] = .error e) :
    DecodeBlockMessage E b = .error e := by
  have hlen := ReadBlock_ok_length b _ h1
  have hrt := header_roundtrip b blk r h1
  simp [DecodeBlockMessage, bind, Outcome.bind, h1, sliceTo, hlen, hrt, h2, orFail, h3]

/-- `ReadBlock` returns a header or an error; it does not panic. -/
theorem ReadBlock_ok_or_error (b : List Byte) :
    (∃ blk, ReadBlock b = .ok (blk, b.drop 80)) ∨ (∃ e, ReadBlock b = .error e) := by
  by_cases h : 80 ≤ b.length
  · exact Or.inl ⟨_, ReadBlock_of_length b h⟩
  · exact Or.inr (ReadBlock_short b (by omega))

/-- The four ways `DecodeBlockMessage` can end: at the header, at the count,
at the first transaction within the signed count that does not decode, or
with the full node list. -/
theorem DecodeBlockMessage_cases {Tx : Type} (E : Env Tx) (b : List Byte) :
    (∃ e, ReadBlock b = .error e ∧
      DecodeBlockMessage E b = .error (.failedTo "read block header" e)) ∨
    (∃ blk r e, ReadBlock b = .ok (blk, r) ∧ E.readVarint r = .error e ∧
      DecodeBlockMessage E b = .error (.failedTo "read tx_count" e)) ∨
    (∃ (blk : Block) (r : List Byte) (n : Int) (r1 : List Byte) (i : Nat) (ts : List Tx)
        (ri : List Byte) (e : Err),
      ReadBlock b = .ok (blk, r) ∧ E.readVarint r = .ok (n, r1) ∧
      (i : Int) < n ∧ specTxs E i r1 = some (ts, ri) ∧ E.readTx ri = .error e ∧
      specTxs E n.toNat r1 = none ∧ DecodeBlockMessage E b = .error (.failedTx i n e)) ∨
    (∃ blk r n r1 txs r2, ReadBlock b = .ok (blk, r) ∧ E.readVarint r = .ok (n, r1) ∧
      specTxs E n.toNat r1 = some (txs, r2) ∧
      DecodeBlockMessage E b = .ok (Node.block blk :: txs.map Node.tx ++
        (specTree E.cid (txs.map Node.tx)).map Node.tree)) := by
  rcases ReadBlock_ok_or_error b with ⟨blk, hR⟩ | ⟨e, hR⟩
  swap
  · exact Or.inl ⟨e, hR, DecodeBlockMessage_header_err E b e hR⟩
  cases hV : E.readVarint (b.drop 80) with
  | error e =>
    exact Or.inr (Or.inl ⟨blk, _, e, hR, hV, DecodeBlockMessage_count_err E b blk _ e hR hV⟩)
  | ok q =>
    obtain ⟨n, r1⟩ := q
    rcases readTxLoop_cases E n n.toNat 0 r1 [] with
      ⟨ts, r2, hs, hl⟩ | ⟨j, ts, rj, e, hj, hs, he, hn, hl⟩
    · refine Or.inr (Or.inr (Or.inr ⟨blk, _, n, r1, ts, r2, hR, hV, hs, ?_⟩))
      rw [DecodeBlockMessage_of_reads E b blk _ r1 r2 n _ hR hV hl]
      simp
    · refine Or.inr (Or.inr (Or.inl
        ⟨blk, _, n, r1, j, ts, rj, e, hR, hV, by omega, hs, he, hn, ?_⟩))
      rw [DecodeBlockMessage_tx_err E b blk _ r1 n _ hR hV hl]
      simp

/-- `DecodeBlock` returns the header that `ReadBlock` returns. -/
theorem DecodeBlock_of_length (b : List Byte) (blk : Block) (r : List Byte)
    (h : ReadBlock b = .ok (blk, r)) : DecodeBlock b = .ok blk := by
  simp [DecodeBlock, bind, Outcome.bind, h, pure]

/-- `DecodeBlock` fails with the error of `ReadBlock`. -/
theorem DecodeBlock_err (b : List Byte) (e : Err) (h : ReadBlock b = .error e) :
    DecodeBlock b = .error e := by
  simp [DecodeBlock, bind, Outcome.bind, h]

/-- The transaction loop consults only `readTx`. -/
theorem readTxLoop_congr {Tx : Type} (E F : Env Tx) (hF : F.readTx = E.readTx) (nTx : Int) :
    ∀ (k i : Nat) (r : List Byte) (acc : List (Node Tx)),
      readTxLoop F nTx k i r acc = readTxLoop E nTx k i r acc := by
  intro k
  induction k with
  | zero => intro i r acc; rfl
  | succ k ih =>
    intro i r acc
    rw [readTxLoop, readTxLoop, hF]
    cases E.readTx r with
    | error e => rfl
    | ok p => exact ih _ _ _

/-- `DecodeBlockMessage` does not panic. -/
theorem DecodeBlockMessage_ne_panic {Tx : Type} (E : Env Tx) (b : List Byte) :
    DecodeBlockMessage E b ≠ .panic := by
  intro hp
  rcases DecodeBlockMessage_cases E b with ⟨_, _, h⟩ | ⟨_, _, _, _, _, h⟩ |
    ⟨_, _, _, _, _, _, _, _, _, _, _, _, _, _, h⟩ | ⟨_, _, _, _, _, _, _, _, _, h⟩ <;>
  · rw [h] at hp
    cases hp

/-- When transaction `j` of the loop is the first that does not decode and
lies within the `k` iterations, the loop ends with the error tagged by its
index and the count. -/
theorem readTxLoop_fail {Tx : Type} (E : Env Tx) (nTx : Int) :
    ∀ (j k i : Nat) (r : List Byte) (acc : List (Node Tx)) (ts : List Tx) (rj : List Byte)
      (e : Err), j < k → specTxs E j r = some (ts, rj) → E.readTx rj = .error e →
      readTxLoop E nTx k i r acc = .error (.failedTx (i + j) nTx e) := by
  intro j
  induction j with
  | zero =>
    intro k i r acc ts rj e hk hs he
    simp only [specTxs, Option.some.injEq, Prod.mk.injEq] at hs
    obtain ⟨_, hr⟩ := hs
    subst hr
    obtain ⟨k1, rfl⟩ : ∃ k1, k = k1 + 1 := ⟨k - 1, by omega⟩
    simp [readTxLoop, he]
  | succ j ih =>
    intro k i r acc ts rj e hk hs he
    obtain ⟨k1, rfl⟩ : ∃ k1, k = k1 + 1 := ⟨k - 1, by omega⟩
    rw [specTxs] at hs
    cases hr : E.readTx r with
    | error e1 => simp [hr] at hs
    | ok p =>
      obtain ⟨t, r1⟩ := p
      simp only [hr] at hs
      cases hs1 : specTxs E j r1 with
      | none => simp [hs1] at hs
      | some q =>
        obtain ⟨ts1, r3⟩ := q
        simp only [hs1, Option.some.injEq, Prod.mk.injEq] at hs
        obtain ⟨_, hr3⟩ := hs
        subst hr3
        rw [readTxLoop, hr]
        simp only
        rw [ih k1 (i + 1) r1 _ ts1 r3 e (by omega) hs1 he]
        congr 2
        omega

/-- A message that agrees with `b` outside bytes 36..68 decodes to the same
header except for `MerkleRoot`, which carries the digest the message declares,
and leaves the same rest of the stream. -/
theorem ReadBlock_swap_root (b b2 : List Byte) (blk : Block) (r : List Byte)
    (h : ReadBlock b = .ok (blk, r)) (htake : b2.take 36 = b.take 36)
    (hdrop : b2.drop 68 = b.drop 68) :
    ReadBlock b2 = .ok
      ({ blk with MerkleRoot :=
          NewCidV1 BitcoinTx (mhEncode ((b2.drop 36).take 32) DBL_SHA2_256) }, r) := by
  have h80 := ReadBlock_ok_length b _ h
  have h80b : 80 ≤ b2.length := by
    have hl := congrArg List.length hdrop
    rw [List.length_drop, List.length_drop] at hl
    omega
  have q0 : b2.take 4 = b.take 4 := by
    have e := congrArg (List.take 4) htake
    simpa [List.take_take] using e
  have q1 : (b2.drop 4).take 32 = (b.drop 4).take 32 := by
    have e := congrArg (List.drop 4) htake
    simpa [List.drop_take] using e
  have q2 : (b2.drop 72) = (b.drop 72) := by
    have e := congrArg (List.drop 4) hdrop
    simpa [List.drop_drop] using e
  have q3 : (b2.drop 76) = (b.drop 76) := by
    have e := congrArg (List.drop 8) hdrop
    simpa [List.drop_drop] using e
  have q4 : (b2.drop 80) = (b.drop 80) := by
    have e := congrArg (List.drop 12) hdrop
    simpa [List.drop_drop] using e
  have t0 := take4_drop b 0 (by omega)
  have t0b := take4_drop b2 0 (by omega)
  rw [List.drop_zero] at t0 t0b
  rw [← q0, t0b] at t0
  have t1 := take4_drop b 68 (by omega)
  rw [← hdrop, take4_drop b2 68 (by omega)] at t1
  have t2 := take4_drop b 72 (by omega)
  rw [← q2, take4_drop b2 72 (by omega)] at t2
  have t3 := take4_drop b 76 (by omega)
  rw [← q3, take4_drop b2 76 (by omega)] at t3
  simp only [List.cons.injEq, and_true] at t0 t1 t2 t3
  rw [ReadBlock_of_length b h80] at h
  injection h with h
  injection h with hb hr
  subst hb hr
  rw [ReadBlock_of_length b2 h80b, q1, q4]
  simp only [t0.1, t0.2.1, t0.2.2.1, t0.2.2.2, t1.1, t1.2.1, t1.2.2.1, t1.2.2.2,
    t2.1, t2.2.1, t2.2.2.1, t2.2.2.2, t3.1, t3.2.1, t3.2.2.1, t3.2.2.2]

/-! ## Small trees -/

/-- No leaf, no internal layer. -/
theorem specTree_nil {Tx : Type} (cid : Node Tx → Cid) : specTree cid [] = [] := by
  rw [specTree]; simp

/-- One leaf, no internal layer. -/
theorem specTree_one {Tx : Type} (cid : Node Tx → Cid) (a : Node Tx) :
    specTree cid [a] = [] := by
  rw [specTree]; simp

/-- The nodes built from three leaves. -/
theorem mkMerkleTree_three {Tx : Type} (E : Env Tx) (a b c : Node Tx) :
    mkMerkleTree E [a, b, c] = .ok
      [⟨E.cid a, E.cid b⟩, ⟨E.cid c, E.cid c⟩,
       ⟨E.cid (.tree ⟨E.cid a, E.cid b⟩), E.cid (.tree ⟨E.cid c, E.cid c⟩)⟩] := by
  simp [mkMerkleTree, mkMerkleTreeLoop, padLayer, pairLoop]

/-- The nodes built from four leaves. -/
theorem mkMerkleTree_four {Tx : Type} (E : Env Tx) (a b c d : Node Tx) :
    mkMerkleTree E [a, b, c, d] = .ok
      [⟨E.cid a, E.cid b⟩, ⟨E.cid c, E.cid d⟩,
       ⟨E.cid (.tree ⟨E.cid a, E.cid b⟩), E.cid (.tree ⟨E.cid c, E.cid d⟩)⟩] := by
  simp [mkMerkleTree, mkMerkleTreeLoop, padLayer, pairLoop]

/-- The internal layers above four leaves. -/
theorem specTree_four {Tx : Type} (cid : Node Tx → Cid) (a b c d : Node Tx) :
    specTree cid [a, b, c, d] =
      [⟨cid a, cid b⟩, ⟨cid c, cid d⟩,
       ⟨cid (.tree ⟨cid a, cid b⟩), cid (.tree ⟨cid c, cid d⟩)⟩] := by
  have h1 := mkMerkleTree_eq_specTree ⟨fun _ => .error (.io ""), fun _ => .error (.io ""), cid⟩
    [a, b, c, d]
  rw [mkMerkleTree_four] at h1
  injection h1 with h1
  exact h1.symm

/-- The node built from two leaves. -/
theorem mkMerkleTree_two {Tx : Type} (E : Env Tx) (a b : Node Tx) :
    mkMerkleTree E [a, b] = .ok [⟨E.cid a, E.cid b⟩] := by
  simp [mkMerkleTree, mkMerkleTreeLoop, padLayer, pairLoop]

/-! ## Shape of the tree -/

/-- One step of the layer construction, for a layer of more than one element. -/
theorem specTree_unfold {Tx : Type} (cid : Node Tx → Cid) (l : List (Node Tx))
    (h : 1 < l.length) :
    specTree cid l = specPairs cid (specPad l) ++
      specTree cid ((specPairs cid (specPad l)).map Node.tree) := by
  rw [specTree]
  simp [h]

/-- A layer of at most one element has nothing above it. -/
theorem specTree_short {Tx : Type} (cid : Node Tx → Cid) (l : List (Node Tx))
    (h : l.length ≤ 1) : specTree cid l = [] := by
  rw [specTree]
  have : ¬ 1 < l.length := by omega
  simp [this]

/-- An odd layer of more than one element and the same layer with its last
element repeated have the same layers above them. -/
theorem specTree_append_last {Tx : Type} (cid : Node Tx → Cid) (l : List (Node Tx))
    (x : Node Tx) (hodd : l.length % 2 = 1) (h1 : 1 < l.length) (hx : l.getLast? = some x) :
    specTree cid l = specTree cid (l ++ [x]) := by
  have hp1 : specPad l = l ++ [x] := by
    simp [specPad, hx, hodd]
  have hp2 : specPad (l ++ [x]) = l ++ [x] := by
    have hev : ¬ (l.length + 1) % 2 = 1 := by omega
    simp [specPad, hev]
  rw [specTree_unfold cid l h1,
    specTree_unfold cid (l ++ [x]) (by rw [List.length_append, List.length_singleton]; omega),
    hp1, hp2]

/-- The elements of a padded layer are elements of the layer. -/
theorem specPad_mem {α : Type} (l : List α) (x : α) (h : x ∈ specPad l) : x ∈ l := by
  unfold specPad at h
  split at h
  · rename_i y hy
    split at h
    · rcases List.mem_append.1 h with h | h
      · exact h
      · rw [List.mem_singleton] at h
        rw [h]
        exact List.mem_of_getLast?_eq_some hy
    · exact h
  · exact h

/-- The number of nodes above `n ≥ 1` leaves is at least `n - 1`, with equality
exactly for the powers of two. -/
theorem specTree_length {Tx : Type} (cid : Node Tx → Cid) :
    ∀ (n : Nat) (l : List (Node Tx)), l.length = n → 1 ≤ n →
      n - 1 ≤ (specTree cid l).length ∧
        ((specTree cid l).length = n - 1 ↔ ∃ k, n = 2 ^ k) := by
  intro n
  induction n using Nat.strongRecOn with
  | _ n ih =>
    intro l hl hn
    by_cases h1 : n = 1
    · subst h1
      rw [specTree_short cid l (by omega)]
      exact ⟨by simp, ⟨fun _ => ⟨0, rfl⟩, fun _ => rfl⟩⟩
    · have hgt : 1 < l.length := by omega
      have hm : ((specPairs cid (specPad l)).map (Node.tree : TxTree → Node Tx)).length
          = (n + n % 2) / 2 := by
        rw [List.length_map, specPairs_length, specPad_length, hl]
      obtain ⟨hb, hiff⟩ := ih ((n + n % 2) / 2) (by omega) _ hm (by omega)
      rw [specTree_unfold cid l hgt, List.length_append, specPairs_length, specPad_length, hl]
      refine ⟨by omega, ⟨fun heq => ?_, fun hk => ?_⟩⟩
      · have hc : (specTree cid ((specPairs cid (specPad l)).map Node.tree)).length
            = (n + n % 2) / 2 - 1 := by omega
        have hev : n % 2 = 0 := by omega
        obtain ⟨k, hk⟩ := hiff.1 hc
        refine ⟨k + 1, ?_⟩
        rw [Nat.pow_succ, ← hk]
        clear hiff ih
        omega
      · obtain ⟨k, hk⟩ := hk
        cases k with
        | zero => simp at hk; omega
        | succ j =>
          rw [Nat.pow_succ] at hk
          have hhalf : (n + n % 2) / 2 = 2 ^ j := by
            clear hiff ih
            omega
          have hc := hiff.2 ⟨j, hhalf⟩
          clear hiff ih
          omega

/-- Every link of a node above a layer addresses an element of the layer or
a node that stands earlier in the list of nodes. -/
theorem specTree_links {Tx : Type} (cid : Node Tx → Cid) :
    ∀ (n : Nat) (l : List (Node Tx)), l.length ≤ n →
      ∀ (j : Nat) (t : TxTree), (specTree cid l)[j]? = some t →
        ∀ c, c = t.Left ∨ c = t.Right →
          (∃ x ∈ l, c = cid x) ∨
          (∃ i u, i < j ∧ (specTree cid l)[i]? = some u ∧ c = cid (Node.tree u)) := by
  intro n
  induction n with
  | zero =>
    intro l hl j t ht
    rw [specTree_short cid l (by omega)] at ht
    simp at ht
  | succ n ih =>
    intro l hl j t ht c hc
    by_cases h1 : l.length ≤ 1
    · rw [specTree_short cid l h1] at ht
      simp at ht
    · have hgt : 1 < l.length := by omega
      have hpl := specPad_length l
      have hPl := specPairs_length cid (specPad l)
      rw [specTree_unfold cid l hgt] at ht ⊢
      by_cases hj : j < (specPairs cid (specPad l)).length
      · left
        rw [List.getElem?_append_left hj, List.getElem?_eq_getElem hj] at ht
        injection ht with ht
        rw [specPairs_getElem cid (specPad l) j hj (by omega) (by omega)] at ht
        subst ht
        rcases hc with hc | hc
        · exact ⟨_, specPad_mem l _ (List.getElem_mem _), hc⟩
        · exact ⟨_, specPad_mem l _ (List.getElem_mem _), hc⟩
      · right
        rw [List.getElem?_append_right (by omega)] at ht
        have hlen : ((specPairs cid (specPad l)).map (Node.tree : TxTree → Node Tx)).length
            ≤ n := by
          rw [List.length_map]
          omega
        rcases ih _ hlen _ t ht c hc with ⟨x, hx, hcx⟩ | ⟨i, u, hi, hu, hcu⟩
        · obtain ⟨p, hp, hpx⟩ := List.mem_map.1 hx
          obtain ⟨i, hi, hpi⟩ := List.getElem_of_mem hp
          refine ⟨i, p, by omega, ?_, ?_⟩
          · rw [List.getElem?_append_left hi, List.getElem?_eq_getElem hi, hpi]
          · rw [hcx, ← hpx]
        · refine ⟨(specPairs cid (specPad l)).length + i, u, by omega, ?_, hcu⟩
          rw [List.getElem?_append_right (by omega)]
          rw [Nat.add_sub_cancel_left]
          exact hu

/-- One step of the pairing rule towards the top node. -/
theorem specRoot_unfold {Tx : Type} (cid : Node Tx → Cid) (l : List (Node Tx))
    (h : 1 < l.length) :
    specRoot cid l = specRoot cid ((specPairs cid (specPad l)).map Node.tree) := by
  rw [specRoot]
  simp [h]

/-- A layer of at most one element is its own top. -/
theorem specRoot_short {Tx : Type} (cid : Node Tx → Cid) (l : List (Node Tx))
    (h : l.length ≤ 1) : specRoot cid l = l.head? := by
  rw [specRoot]
  have : ¬ 1 < l.length := by omega
  simp [this]

/-- The leaves followed by all the nodes above them end with the element the
pairing rule leaves: the last node built, or the only leaf. -/
theorem getLast_leaves_tree {Tx : Type} (cid : Node Tx → Cid) :
    ∀ (n : Nat) (l : List (Node Tx)), l.length ≤ n → l ≠ [] →
      (l ++ (specTree cid l).map Node.tree).getLast? = specRoot cid l := by
  intro n
  induction n with
  | zero =>
    intro l hl hne
    cases l with
    | nil => exact absurd rfl hne
    | cons a t => simp at hl
  | succ n ih =>
    intro l hl hne
    by_cases h1 : l.length ≤ 1
    · rw [specTree_short cid l h1, specRoot_short cid l h1]
      cases l with
      | nil => exact absurd rfl hne
      | cons a t =>
        cases t with
        | nil => rfl
        | cons c u => simp at h1
    · have hgt : 1 < l.length := by omega
      have hpl := specPad_length l
      have hPl := specPairs_length cid (specPad l)
      have hlen : ((specPairs cid (specPad l)).map (Node.tree : TxTree → Node Tx)).length
          ≤ n := by
        rw [List.length_map]
        omega
      have hne2 : (specPairs cid (specPad l)).map (Node.tree : TxTree → Node Tx) ≠ [] := by
        intro hnil
        have hz := congrArg List.length hnil
        rw [List.length_map, List.length_nil] at hz
        omega
      have hrec := ih _ hlen hne2
      rw [specRoot_unfold cid l hgt, specTree_unfold cid l hgt, List.map_append, ← hrec]
      have hne3 : (specPairs cid (specPad l)).map (Node.tree : TxTree → Node Tx) ++
          (specTree cid ((specPairs cid (specPad l)).map Node.tree)).map Node.tree ≠ [] := by
        intro hnil
        exact hne2 (List.append_eq_nil.1 hnil).1
      exact List.getLast?_append_of_ne_nil _ hne3

/-! ## Claims about `mkMerkleTree` -/

/-- C1: for every list of leaf nodes `mkMerkleTree` returns, with a nil error,
exactly the internal layers concatenated bottom layer first and left to right,
each layer made from the one below (starting at the leaves, while it has more
than one element) by appending a copy of its last element when its length is
odd and then linking, for each `i`, the addresses of elements `2i` and `2i+1`. -/
theorem C1_mkMerkleTree_internal_layers {Tx : Type} (E : Env Tx) (txs : List (Node Tx)) :
    mkMerkleTree E txs = .ok (specTree E.cid txs) :=
  mkMerkleTree_eq_specTree E txs

/-- C2, refuted as stated: whatever the `Cid()` method is, the three leaves
`1, 2, 3` do not give a list of exactly two `TxTree` nodes. -/
theorem C2_counterexample :
    ¬ ∃ (cid : Node Byte → Cid) (ts : List TxTree),
      mkMerkleTree (byteEnv cid) [.tx 1, .tx 2, .tx 3] = .ok ts ∧ ts.length = 2 := by
  rintro ⟨cid, ts, h, hl⟩
  rw [mkMerkleTree_three] at h
  injection h with h
  subst h
  simp at hl

/-- C2, amended: a list of exactly 3 leaves gives exactly 3 `TxTree` nodes: one
pairing leaves 0 and 1, one pairing the duplicated leaf 2 with itself, and the
root linking these two nodes by their addresses. -/
theorem C2_three_leaves_three_nodes {Tx : Type} (E : Env Tx) (a b c : Node Tx) :
    mkMerkleTree E [a, b, c] = .ok
      [⟨E.cid a, E.cid b⟩, ⟨E.cid c, E.cid c⟩,
       ⟨E.cid (.tree ⟨E.cid a, E.cid b⟩), E.cid (.tree ⟨E.cid c, E.cid c⟩)⟩] :=
  mkMerkleTree_three E a b c

/-- C3: on a list of exactly 1 leaf `mkMerkleTree` succeeds and produces no
`TxTree` node. -/
theorem C3_single_leaf_no_nodes {Tx : Type} (E : Env Tx) (a : Node Tx) :
    mkMerkleTree E [a] = .ok [] := by
  rw [mkMerkleTree_eq_specTree, specTree_one]

/-- C4, refuted as stated: on the empty leaf list `mkMerkleTree` returns an
empty node list with a nil error, not an error. -/
theorem C4_counterexample :
    mkMerkleTree (byteEnv plainCid) [] = .ok [] ∧
      ¬ ∃ e : Err, mkMerkleTree (byteEnv plainCid) [] = .error e := by
  have h : mkMerkleTree (byteEnv plainCid) [] = .ok [] := rfl
  refine ⟨h, ?_⟩
  rintro ⟨e, he⟩
  rw [h] at he
  cases he

/-- C4, amended: `mkMerkleTree` never fails; on every leaf list, the empty one
included, it returns a node list with a nil error, and on the empty list that
node list is empty. -/
theorem C4_mkMerkleTree_never_fails {Tx : Type} (E : Env Tx) (txs : List (Node Tx)) :
    (∃ ts, mkMerkleTree E txs = .ok ts) ∧ (∀ e, mkMerkleTree E txs ≠ .error e) ∧
      mkMerkleTree E [] = .ok [] := by
  refine ⟨⟨_, mkMerkleTree_eq_specTree E txs⟩, ?_, ?_⟩
  · intro e he
    rw [mkMerkleTree_eq_specTree] at he
    cases he
  · rw [mkMerkleTree_eq_specTree, specTree_nil]

/-! ## Claims about `DecodeBlockMessage` -/

/-- C5, refuted as stated: the all-zero header followed by the count 0 decodes
its header, declares 0 transactions, and `DecodeBlockMessage` returns no
error. -/
theorem C5_counterexample :
    ReadBlock msgEmpty = .ok (zeroHeader, [0]) ∧
      (byteEnv plainCid).readVarint [0] = .ok (0, []) ∧
      ¬ ∃ e : Err, DecodeBlockMessage (byteEnv plainCid) msgEmpty = .error e := by
  refine ⟨rfl, rfl, ?_⟩
  rintro ⟨e, he⟩
  have h : DecodeBlockMessage (byteEnv plainCid) msgEmpty = .ok [Node.block zeroHeader] := rfl
  rw [h] at he
  cases he

/-- C5, amended: when the 80-byte header decodes and the declared transaction
count is 0, `DecodeBlockMessage` succeeds and returns the list holding only
the decoded header. -/
theorem C5_zero_count_returns_header {Tx : Type} (E : Env Tx) (b : List Byte) (blk : Block)
    (r r1 : List Byte) (h1 : ReadBlock b = .ok (blk, r))
    (h2 : E.readVarint r = .ok (0, r1)) :
    DecodeBlockMessage E b = .ok [Node.block blk] := by
  rw [DecodeBlockMessage_of_reads E b blk r r1 r1 0 [] h1 h2 rfl, specTree_nil]
  rfl

/-- C5, amended, at the all-zero header followed by the count 0. -/
theorem C5_zero_count_witness :
    ReadBlock msgEmpty = .ok (zeroHeader, [0]) ∧
      (byteEnv plainCid).readVarint [0] = .ok (0, []) ∧
      DecodeBlockMessage (byteEnv plainCid) msgEmpty = .ok [Node.block zeroHeader] :=
  ⟨rfl, rfl, C5_zero_count_returns_header (byteEnv plainCid) msgEmpty zeroHeader [0] [] rfl rfl⟩

/-- C6, refuted as stated: `msgOneA` and `msgOneB` carry the same single
transaction and differ only in the declared merkle-root digest; both decode,
so for no `Cid()` method does the header's `MerkleRoot` equal the address of
the last output node on both. -/
theorem C6_counterexample :
    ¬ ∃ cid : Node Byte → Cid, ∀ b ∈ [msgOneA, msgOneB],
      ∀ (blk : Block) (rest : List (Node Byte)) (hne : rest ≠ []),
        DecodeBlockMessage (byteEnv cid) b = .ok (Node.block blk :: rest) →
          blk.MerkleRoot = cid (rest.getLast hne) := by
  rintro ⟨cid, H⟩
  have hA : DecodeBlockMessage (byteEnv cid) msgOneA
      = .ok (Node.block zeroHeader :: [Node.tx 7]) := by
    rw [DecodeBlockMessage_of_reads (byteEnv cid) msgOneA zeroHeader [1, 7] [7] [] 1
      [Node.tx 7] rfl rfl rfl, specTree_one]
    rfl
  have hB : DecodeBlockMessage (byteEnv cid) msgOneB
      = .ok (Node.block { zeroHeader with
          MerkleRoot := NewCidV1 BitcoinTx (mhEncode (1 :: List.replicate 31 0) DBL_SHA2_256) }
        :: [Node.tx 7]) := by
    rw [DecodeBlockMessage_of_reads (byteEnv cid) msgOneB _ [1, 7] [7] [] 1
      [Node.tx 7] rfl rfl rfl, specTree_one]
    rfl
  have eA := H msgOneA (by simp) _ _ (by simp) hA
  have eB := H msgOneB (by simp) _ _ (by simp) hB
  rw [← eB] at eA
  revert eA
  decide

/-- C6, amended: when `DecodeBlockMessage` succeeds with at least one
transaction, the last node of the output is the single element that the
pairing rule leaves above the decoded transactions (the top `TxTree`, or the
only transaction), and the header's `MerkleRoot` is the transaction-typed
double-SHA2-256 address whose digest is input bytes 36..68. The two are not
compared: every message that differs from the input only in bytes 36..68
decodes to the same nodes, with `MerkleRoot` the digest that message declares. -/
theorem C6_merkleRoot_is_declared {Tx : Type} (E : Env Tx) (b : List Byte) (blk : Block)
    (r r1 : List Byte) (n : Int) (out : List (Node Tx))
    (hr : ReadBlock b = .ok (blk, r)) (hc : E.readVarint r = .ok (n, r1)) (hn : 1 ≤ n)
    (h : DecodeBlockMessage E b = .ok out) :
    ∃ (txs : List Tx) (r2 : List Byte) (top : Node Tx) (rest : List (Node Tx)),
      specTxs E n.toNat r1 = some (txs, r2) ∧ txs ≠ [] ∧
      out = Node.block blk :: rest ∧
      rest.getLast? = some top ∧ specRoot E.cid (txs.map Node.tx) = some top ∧
      blk.MerkleRoot = NewCidV1 BitcoinTx (mhEncode ((b.drop 36).take 32) DBL_SHA2_256) ∧
      ∀ b2 : List Byte, b2.take 36 = b.take 36 → b2.drop 68 = b.drop 68 →
        DecodeBlockMessage E b2 = .ok (Node.block
          { blk with
            MerkleRoot := NewCidV1 BitcoinTx (mhEncode ((b2.drop 36).take 32) DBL_SHA2_256) }
          :: rest) := by
  obtain ⟨blk2, r2, n2, r3, txs, r4, hR, hV, hT, hout⟩ := DecodeBlockMessage_ok_inv E b out h
  rw [hr] at hR
  injection hR with hR
  injection hR with hb hr2
  subst hb hr2
  rw [hc] at hV
  injection hV with hV
  injection hV with hn2 hr3
  subst hn2 hr3
  obtain ⟨ts, hts, htxs⟩ := (readTxLoop_ok_iff E n n.toNat 0 r1 [] txs r4).1 hT
  have hlen := specTxs_length E n.toNat r1 ts r4 hts
  rw [List.nil_append] at htxs
  subst htxs
  have hroot : blk.MerkleRoot =
      NewCidV1 BitcoinTx (mhEncode ((b.drop 36).take 32) DBL_SHA2_256) := by
    have h80 := ReadBlock_ok_length b _ hr
    have hr0 := hr
    rw [ReadBlock_of_length b h80] at hr0
    injection hr0 with hr0
    injection hr0 with hb _
    rw [← hb]
  have hne : ts ≠ [] := by
    intro hnil
    rw [hnil, List.length_nil] at hlen
    omega
  have hne2 : ts.map (Node.tx : Tx → Node Tx) ≠ [] := by
    intro hnil
    exact hne (List.map_eq_nil_iff.1 hnil)
  have hlast := getLast_leaves_tree E.cid _ (ts.map Node.tx) (Nat.le_refl _) hne2
  obtain ⟨top, htop⟩ : ∃ top, (ts.map (Node.tx : Tx → Node Tx) ++
      (specTree E.cid (ts.map Node.tx)).map Node.tree).getLast? = some top := by
    cases hg : (ts.map (Node.tx : Tx → Node Tx) ++
        (specTree E.cid (ts.map Node.tx)).map Node.tree).getLast? with
    | some top => exact ⟨top, rfl⟩
    | none =>
      rw [List.getLast?_eq_none_iff] at hg
      exact absurd (List.append_eq_nil.1 hg).1 hne2
  refine ⟨ts, r4, top, _, hts, hne, hout, htop, ?_, hroot, ?_⟩
  · rw [← hlast, htop]
  · intro b2 htake hdrop
    exact DecodeBlockMessage_of_reads E b2 _ r r1 r4 n _
      (ReadBlock_swap_root b b2 blk r hr htake hdrop) hc hT

/-- C6, amended, at `msgFour` and at `msgFourB`, which declares another digest:
the same four transactions, the same top node, another `MerkleRoot`. -/
theorem C6_merkleRoot_witness :
    ∃ (top : Node Byte) (rest : List (Node Byte)),
      DecodeBlockMessage (byteEnv plainCid) msgFour = .ok (Node.block zeroHeader :: rest) ∧
      rest.getLast? = some top ∧
      specRoot plainCid [Node.tx 10, Node.tx 20, Node.tx 30, Node.tx 40] = some top ∧
      zeroHeader.MerkleRoot =
        NewCidV1 BitcoinTx (mhEncode (List.replicate 32 0) DBL_SHA2_256) ∧
      DecodeBlockMessage (byteEnv plainCid) msgFourB = .ok (Node.block
        { zeroHeader with
          MerkleRoot := NewCidV1 BitcoinTx (mhEncode (1 :: List.replicate 31 0) DBL_SHA2_256) }
        :: rest) := by
  have hd : DecodeBlockMessage (byteEnv plainCid) msgFour = .ok
      (Node.block zeroHeader :: [Node.tx 10, Node.tx 20, Node.tx 30, Node.tx 40]
        ++ (specTree plainCid [Node.tx 10, Node.tx 20, Node.tx 30, Node.tx 40]).map Node.tree) :=
    DecodeBlockMessage_of_reads (byteEnv plainCid) msgFour zeroHeader [4, 10, 20, 30, 40]
      [10, 20, 30, 40] [] 4 _ rfl rfl rfl
  obtain ⟨txs, r2, top, rest, hts, _, hout, hlast, htop, hroot, hswap⟩ :=
    C6_merkleRoot_is_declared (byteEnv plainCid) msgFour zeroHeader [4, 10, 20, 30, 40]
      [10, 20, 30, 40] 4 _ rfl rfl (by decide) hd
  have hts2 : specTxs (byteEnv plainCid) (4 : Int).toNat [10, 20, 30, 40]
      = some ([10, 20, 30, 40], []) := rfl
  rw [hts2] at hts
  injection hts with hts
  injection hts with htx _
  subst htx
  injection hout with _ htail
  have hrest : rest = [Node.tx 10, Node.tx 20, Node.tx 30, Node.tx 40]
      ++ (specTree plainCid [Node.tx 10, Node.tx 20, Node.tx 30, Node.tx 40]).map Node.tree :=
    htail.symm
  refine ⟨top, rest, ?_, hlast, htop, hroot, hswap msgFourB rfl rfl⟩
  rw [hrest]
  exact hd

/-- C7: a block message that declares exactly 4 transactions and decodes
returns exactly 8 nodes: the header, the 4 transactions in stream order, the
two `TxTree` nodes pairing leaves (0,1) and (2,3), and the root linking these
two nodes by their addresses. -/
theorem C7_four_transactions {Tx : Type} (E : Env Tx) (b : List Byte) (blk : Block)
    (r r1 : List Byte) (out : List (Node Tx))
    (hr : ReadBlock b = .ok (blk, r)) (hc : E.readVarint r = .ok (4, r1))
    (h : DecodeBlockMessage E b = .ok out) :
    ∃ (t0 t1 t2 t3 : Tx) (r2 : List Byte), specTxs E 4 r1 = some ([t0, t1, t2, t3], r2) ∧
      out = [Node.block blk, Node.tx t0, Node.tx t1, Node.tx t2, Node.tx t3,
        Node.tree ⟨E.cid (.tx t0), E.cid (.tx t1)⟩,
        Node.tree ⟨E.cid (.tx t2), E.cid (.tx t3)⟩,
        Node.tree ⟨E.cid (.tree ⟨E.cid (.tx t0), E.cid (.tx t1)⟩),
                   E.cid (.tree ⟨E.cid (.tx t2), E.cid (.tx t3)⟩)⟩] ∧
      out.length = 8 := by
  obtain ⟨blk2, r2, n2, r3, txs, r4, hR, hV, hT, hout⟩ := DecodeBlockMessage_ok_inv E b out h
  rw [hr] at hR
  injection hR with hR
  injection hR with hb hr2
  subst hb hr2
  rw [hc] at hV
  injection hV with hV
  injection hV with hn2 hr3
  subst hn2 hr3
  obtain ⟨ts, hts, htxs⟩ := (readTxLoop_ok_iff E 4 4 0 r1 [] txs r4).1 hT
  have hlen := specTxs_length E 4 r1 ts r4 hts
  match ts, hlen with
  | [t0, t1, t2, t3], _ =>
    refine ⟨t0, t1, t2, t3, r4, hts, ?_, ?_⟩
    · rw [hout, htxs]
      simp [specTree_four]
    · rw [hout, htxs]
      simp [specTree_four]

/-- C7 at `msgFour`, four one-byte transactions after an all-zero header. -/
theorem C7_four_transactions_witness :
    ReadBlock msgFour = .ok (zeroHeader, [4, 10, 20, 30, 40]) ∧
      (byteEnv plainCid).readVarint [4, 10, 20, 30, 40] = .ok (4, [10, 20, 30, 40]) ∧
      ∃ out, DecodeBlockMessage (byteEnv plainCid) msgFour = .ok out ∧ out.length = 8 := by
  refine ⟨rfl, rfl, _, rfl, ?_⟩
  obtain ⟨_, _, _, _, _, _, _, hl⟩ :=
    C7_four_transactions (byteEnv plainCid) msgFour zeroHeader [4, 10, 20, 30, 40]
      [10, 20, 30, 40] _ rfl rfl rfl
  exact hl

/-- C8, refuted as stated: `msgHuge` declares `2^63` transactions after an
all-zero header; as a Go `int` the count is `-2^63`, the loop runs no
iteration and `DecodeBlockMessage` succeeds with the header alone, a list of
length 1 and not `1 + n + 0`, whether `n` is read as declared or as held. -/
theorem C8_counterexample :
    ReadBlock msgHuge = .ok (zeroHeader, [0xff, 0, 0, 0, 0, 0, 0, 0, 0x80]) ∧
      varintValue [0xff, 0, 0, 0, 0, 0, 0, 0, 0x80] = .ok (9223372036854775808, []) ∧
      (wireEnv plainCid).readVarint [0xff, 0, 0, 0, 0, 0, 0, 0, 0x80]
        = .ok (-9223372036854775808, []) ∧
      mkMerkleTree (wireEnv plainCid) [] = .ok [] ∧
      DecodeBlockMessage (wireEnv plainCid) msgHuge = .ok [Node.block zeroHeader] ∧
      ([Node.block zeroHeader] : List (Node Byte)).length ≠ 1 + 9223372036854775808 + 0 ∧
      ((([Node.block zeroHeader] : List (Node Byte)).length : Nat) : Int)
        ≠ 1 + (-9223372036854775808) + 0 := by
  refine ⟨rfl, rfl, rfl, rfl, rfl, ?_, ?_⟩ <;> decide

/-- C8, amended: whenever `DecodeBlockMessage` succeeds, its output is the
decoded header, then the transactions the loop decodes, one after the other in
stream order (each once, no padding copy), then the nodes of `mkMerkleTree` on
these transactions in their order. When the declared count `n`, a signed
integer in the code, is not negative there are `n` transactions and the length
is `1 + n +` the number of `TxTree` nodes. -/
theorem C8_output_layout {Tx : Type} (E : Env Tx) (b : List Byte) (out : List (Node Tx))
    (h : DecodeBlockMessage E b = .ok out) :
    ∃ (blk : Block) (r : List Byte) (n : Int) (r1 : List Byte) (txs : List Tx)
      (r2 : List Byte) (trees : List TxTree),
      ReadBlock b = .ok (blk, r) ∧ E.readVarint r = .ok (n, r1) ∧
      specTxs E n.toNat r1 = some (txs, r2) ∧
      mkMerkleTree E (txs.map Node.tx) = .ok trees ∧
      out = [Node.block blk] ++ txs.map Node.tx ++ trees.map Node.tree ∧
      out.length = 1 + txs.length + trees.length ∧
      (0 ≤ n → (txs.length : Int) = n ∧ (out.length : Int) = 1 + n + trees.length) := by
  obtain ⟨blk, r, n, r1, txs, r2, hR, hV, hT, hout⟩ := DecodeBlockMessage_ok_inv E b out h
  obtain ⟨ts, hts, htxs⟩ := (readTxLoop_ok_iff E n n.toNat 0 r1 [] txs r2).1 hT
  have hlen := specTxs_length E n.toNat r1 ts r2 hts
  rw [List.nil_append] at htxs
  subst htxs
  have hl : out.length = 1 + ts.length + (specTree E.cid (ts.map Node.tx)).length := by
    rw [hout]
    simp only [List.length_cons, List.length_append, List.length_map]
    omega
  refine ⟨blk, r, n, r1, ts, r2, specTree E.cid (ts.map Node.tx), hR, hV, hts,
    mkMerkleTree_eq_specTree E _, ?_, hl, ?_⟩
  · rw [hout]
    simp
  · intro h0
    omega

/-- C8, amended, at `msgThree`: the three transactions appear once each, in
order, and the output has `1 + 3 + 3` nodes. -/
theorem C8_output_layout_witness :
    ∃ (out : List (Node Byte)) (trees : List TxTree),
      DecodeBlockMessage (byteEnv plainCid) msgThree = .ok out ∧
      out = [Node.block zeroHeader] ++ [Node.tx 10, Node.tx 20, Node.tx 30]
        ++ trees.map Node.tree ∧
      (out.length : Int) = 1 + 3 + trees.length := by
  have hd : DecodeBlockMessage (byteEnv plainCid) msgThree = .ok
      (Node.block zeroHeader :: [Node.tx 10, Node.tx 20, Node.tx 30]
        ++ (specTree plainCid [Node.tx 10, Node.tx 20, Node.tx 30]).map Node.tree) :=
    DecodeBlockMessage_of_reads (byteEnv plainCid) msgThree zeroHeader [3, 10, 20, 30]
      [10, 20, 30] [] 3 _ rfl rfl rfl
  obtain ⟨blk, r, n, r1, txs, r2, trees, hR, hV, hts, _, hout, _, hl⟩ :=
    C8_output_layout (byteEnv plainCid) msgThree _ hd
  have hR2 : ReadBlock msgThree = .ok (zeroHeader, [3, 10, 20, 30]) := rfl
  rw [hR2] at hR
  injection hR with hR
  injection hR with hb hr
  subst hb hr
  have hV2 : (byteEnv plainCid).readVarint [3, 10, 20, 30] = .ok (3, [10, 20, 30]) := rfl
  rw [hV2] at hV
  injection hV with hV
  injection hV with hn hr1
  subst hn hr1
  have hts2 : specTxs (byteEnv plainCid) (3 : Int).toNat [10, 20, 30]
      = some ([10, 20, 30], []) := rfl
  rw [hts2] at hts
  injection hts with hts
  injection hts with htx _
  subst htx
  exact ⟨_, trees, hd, hout, (hl (by decide)).2⟩

/-! ## Claims about `ReadBlock` -/

/-- C9: on a stream holding at least 80 bytes `ReadBlock` succeeds, and the
header's `Version`, `Timestamp`, `Difficulty` and `Nonce` are the unsigned
32-bit little-endian values of bytes 0..4, 68..72, 72..76 and 76..80, that is
`b0 + 256*b1 + 65536*b2 + 16777216*b3`. -/
theorem C9_header_integers (b : List Byte) (h : 80 ≤ b.length) :
    ∃ (blk : Block) (rest : List Byte), ReadBlock b = .ok (blk, rest) ∧
      blk.Version = b[0].val + 256 * b[1].val + 65536 * b[2].val + 16777216 * b[3].val ∧
      blk.Timestamp = b[68].val + 256 * b[69].val + 65536 * b[70].val + 16777216 * b[71].val ∧
      blk.Difficulty = b[72].val + 256 * b[73].val + 65536 * b[74].val + 16777216 * b[75].val ∧
      blk.Nonce = b[76].val + 256 * b[77].val + 65536 * b[78].val + 16777216 * b[79].val ∧
      blk.Version < 2 ^ 32 ∧ blk.Timestamp < 2 ^ 32 ∧ blk.Difficulty < 2 ^ 32 ∧
      blk.Nonce < 2 ^ 32 := by
  refine ⟨_, _, ReadBlock_of_length b h, rfl, rfl, rfl, rfl, ?_, ?_, ?_, ?_⟩ <;>
    simp only [le32] <;> omega

/-- C9 at the bytes `0, 1, …, 83`. -/
theorem C9_header_integers_witness :
    80 ≤ msgCount.length ∧
      ∃ (blk : Block) (rest : List Byte), ReadBlock msgCount = .ok (blk, rest) ∧
        blk.Version = 50462976 ∧ blk.Timestamp = 1195787588 ∧
        blk.Difficulty = 1263159624 ∧ blk.Nonce = 1330531660 := by
  obtain ⟨blk, rest, hR, h1, h2, h3, h4, _⟩ := C9_header_integers msgCount (by decide)
  exact ⟨by decide, blk, rest, hR, h1, h2, h3, h4⟩

/-- C10: on a stream holding at least 80 bytes the decoded header has
`Parent` the address with codec `BitcoinBlock` and hash function
double-SHA2-256 whose digest is the 32 bytes 4..36 in stream order, and
`MerkleRoot` the address with codec `BitcoinTx` and the same hash function
whose digest is the 32 bytes 36..68. -/
theorem C10_header_addresses (b : List Byte) (h : 80 ≤ b.length) :
    ∃ (blk : Block) (rest : List Byte), ReadBlock b = .ok (blk, rest) ∧
      blk.Parent = NewCidV1 BitcoinBlock (mhEncode ((b.drop 4).take 32) DBL_SHA2_256) ∧
      blk.MerkleRoot = NewCidV1 BitcoinTx (mhEncode ((b.drop 36).take 32) DBL_SHA2_256) ∧
      blk.Parent.codec = BitcoinBlock ∧ blk.Parent.hash.code = DBL_SHA2_256 ∧
      blk.MerkleRoot.codec = BitcoinTx ∧ blk.MerkleRoot.hash.code = DBL_SHA2_256 ∧
      blk.Parent.hash.digest.length = 32 ∧ blk.MerkleRoot.hash.digest.length = 32 ∧
      ∀ i, i < 32 → blk.Parent.hash.digest[i]? = b[4 + i]? ∧
        blk.MerkleRoot.hash.digest[i]? = b[36 + i]? := by
  refine ⟨_, _, ReadBlock_of_length b h, rfl, rfl, rfl, rfl, rfl, rfl, ?_, ?_, ?_⟩
  · simp only [NewCidV1, mhEncode, List.length_take, List.length_drop]
    omega
  · simp only [NewCidV1, mhEncode, List.length_take, List.length_drop]
    omega
  · intro i hi
    simp only [NewCidV1, mhEncode]
    constructor
    · rw [List.getElem?_take_of_lt hi, List.getElem?_drop]
    · rw [List.getElem?_take_of_lt hi, List.getElem?_drop]

/-- C10 at the bytes `0, 1, …, 83`: the digests are bytes 4..36 and 36..68. -/
theorem C10_header_addresses_witness :
    80 ≤ msgCount.length ∧
      ∃ (blk : Block) (rest : List Byte), ReadBlock msgCount = .ok (blk, rest) ∧
        blk.Parent.hash.digest[0]? = some 4 ∧ blk.Parent.hash.digest[31]? = some 35 ∧
        blk.MerkleRoot.hash.digest[0]? = some 36 ∧
        blk.MerkleRoot.hash.digest[31]? = some 67 := by
  obtain ⟨blk, rest, hR, _, _, _, _, _, _, _, _, hd⟩ :=
    C10_header_addresses msgCount (by decide)
  refine ⟨by decide, blk, rest, hR, ?_, ?_, ?_, ?_⟩
  · rw [(hd 0 (by decide)).1]; rfl
  · rw [(hd 31 (by decide)).1]; rfl
  · rw [(hd 0 (by decide)).2]; rfl
  · rw [(hd 31 (by decide)).2]; rfl

/-- C11: the header decoder fails exactly on buffers shorter than 80 bytes:
`ReadBlock` and `DecodeBlock` return an error and no header when fewer than 80
bytes remain, and a header on every buffer of 80 bytes or more; there is no
other outcome. -/
theorem C11_header_fails_iff_short (b : List Byte) :
    ((∃ e, ReadBlock b = .error e) ↔ b.length < 80) ∧
    ((∃ blk rest, ReadBlock b = .ok (blk, rest)) ↔ 80 ≤ b.length) ∧
    ((∃ e, DecodeBlock b = .error e) ↔ b.length < 80) ∧
    ((∃ blk, DecodeBlock b = .ok blk) ↔ 80 ≤ b.length) := by
  by_cases h : 80 ≤ b.length
  · have hR := ReadBlock_of_length b h
    have hD := DecodeBlock_of_length b _ _ hR
    refine ⟨⟨?_, fun hlt => absurd h (by omega)⟩, ⟨fun _ => h, fun _ => ⟨_, _, hR⟩⟩,
      ⟨?_, fun hlt => absurd h (by omega)⟩, ⟨fun _ => h, fun _ => ⟨_, hD⟩⟩⟩
    · rintro ⟨e, he⟩
      rw [hR] at he
      cases he
    · rintro ⟨e, he⟩
      rw [hD] at he
      cases he
  · have hlt : b.length < 80 := by omega
    obtain ⟨e, hR⟩ := ReadBlock_short b hlt
    have hD := DecodeBlock_err b e hR
    refine ⟨⟨fun _ => hlt, fun _ => ⟨e, hR⟩⟩, ⟨?_, fun h80 => absurd h80 h⟩,
      ⟨fun _ => hlt, fun _ => ⟨e, hD⟩⟩, ⟨?_, fun h80 => absurd h80 h⟩⟩
    · rintro ⟨blk, rest, hok⟩
      rw [hR] at hok
      cases hok
    · rintro ⟨blk, hok⟩
      rw [hD] at hok
      cases hok

/-- C12: for every input of at least 80 bytes, the header decoded by
`ReadBlock`, re-serialized by `header()`, is exactly the first 80 bytes of the
input, so the integrity check of `DecodeBlockMessage` does not abort. -/
theorem C12_header_roundtrip {Tx : Type} (E : Env Tx) (b : List Byte) (h : 80 ≤ b.length) :
    ∃ (blk : Block) (rest : List Byte), ReadBlock b = .ok (blk, rest) ∧
      blk.header = b.take 80 ∧ blk.header.length = 80 ∧
      sliceTo b 80 = .ok (b.take 80) ∧ DecodeBlockMessage E b ≠ .panic := by
  have hR := ReadBlock_of_length b h
  have hrt := header_roundtrip b _ _ hR
  refine ⟨_, _, hR, hrt, ?_, ?_, DecodeBlockMessage_ne_panic E b⟩
  · rw [hrt, List.length_take]
    omega
  · simp [sliceTo, h]

/-- C12 at the bytes `0, 1, …, 83`. -/
theorem C12_header_roundtrip_witness :
    80 ≤ msgCount.length ∧
      ∃ (blk : Block) (rest : List Byte), ReadBlock msgCount = .ok (blk, rest) ∧
        blk.header = msgCount.take 80 := by
  obtain ⟨blk, rest, hR, hh, _⟩ := C12_header_roundtrip (byteEnv plainCid) msgCount (by decide)
  exact ⟨by decide, blk, rest, hR, hh⟩

/-- C13: when `ReadBlock` succeeds it has consumed exactly 80 bytes; the
decoded header does not depend on the bytes from offset 80 on, and
`DecodeBlockMessage` reads the transaction count at offset 80 and nowhere
else. -/
theorem C13_cursor_advances_80 {Tx : Type} (E : Env Tx) (b : List Byte) (blk : Block)
    (rest : List Byte) (h : ReadBlock b = .ok (blk, rest)) :
    rest = b.drop 80 ∧ rest.length + 80 = b.length ∧
      (∀ tail : List Byte, ReadBlock (b.take 80 ++ tail) = .ok (blk, tail)) ∧
      (∀ e, E.readVarint (b.drop 80) = .error e →
        DecodeBlockMessage E b = .error (.failedTo "read tx_count" e)) ∧
      (∀ f : List Byte → Except Err (Int × List Byte),
        f (b.drop 80) = E.readVarint (b.drop 80) →
          DecodeBlockMessage { E with readVarint := f } b = DecodeBlockMessage E b) := by
  have h80 := ReadBlock_ok_length b _ h
  have hR := ReadBlock_of_length b h80
  have hrest : rest = b.drop 80 := by
    rw [hR] at h
    injection h with h
    injection h with _ h2
    exact h2.symm
  subst hrest
  refine ⟨rfl, ?_, ?_, ?_, ?_⟩
  · rw [List.length_drop]
    omega
  · intro tail
    have hl : 80 ≤ (b.take 80 ++ tail).length := by
      rw [List.length_append, List.length_take]
      omega
    have ht : (b.take 80 ++ tail).take 80 = b.take 80 := by
      rw [List.take_append_of_le_length (by rw [List.length_take]; omega), List.take_take]
      simp
    have hd : (b.take 80 ++ tail).drop 80 = tail := by
      rw [List.drop_append_of_le_length (by rw [List.length_take]; omega),
        List.drop_eq_nil_of_le (by rw [List.length_take]; omega)]
      rfl
    obtain ⟨blk1, ha1, hb1⟩ := ReadBlock_take b h80
    obtain ⟨blk2, ha2, hb2⟩ := ReadBlock_take (b.take 80 ++ tail) hl
    rw [ht, ha1] at ha2
    injection ha2 with ha2
    injection ha2 with hblk _
    rw [hb1] at h
    injection h with h
    injection h with hblk1 _
    rw [hb2, hd, ← hblk, hblk1]
  · intro e he
    exact DecodeBlockMessage_count_err E b blk _ e h he
  · intro f hf
    have hlen := h80
    have hrt := header_roundtrip b blk _ h
    cases hV : E.readVarint (b.drop 80) with
    | error e =>
      rw [DecodeBlockMessage_count_err E b blk _ e h hV]
      exact DecodeBlockMessage_count_err _ b blk _ e h (by rw [← hV]; exact hf)
    | ok q =>
      obtain ⟨n, r1⟩ := q
      have hc := readTxLoop_congr E { E with readVarint := f } rfl n n.toNat 0 r1 []
      have hfV : f (b.drop 80) = .ok (n, r1) := hf.trans hV
      simp [DecodeBlockMessage, bind, Outcome.bind, h, sliceTo, hlen, hrt, hV, hfV, orFail, hc,
        mkMerkleTree]

/-- C13 at `msgFour`: the rest of the stream is the 5 bytes after offset 80. -/
theorem C13_cursor_advances_80_witness :
    ReadBlock msgFour = .ok (zeroHeader, [4, 10, 20, 30, 40]) ∧
      ([4, 10, 20, 30, 40] : List Byte) = msgFour.drop 80 ∧
      ([4, 10, 20, 30, 40] : List Byte).length + 80 = msgFour.length ∧
      ReadBlock (msgFour.take 80 ++ [9, 9]) = .ok (zeroHeader, [9, 9]) := by
  obtain ⟨h1, h2, h3, _, _⟩ :=
    C13_cursor_advances_80 (byteEnv plainCid) msgFour zeroHeader [4, 10, 20, 30, 40] rfl
  exact ⟨rfl, h1, h2, h3 [9, 9]⟩

/-- C14: `DecodeBlockMessage` returns an error (and with it no node list)
exactly when the header read fails, the count read fails, or the read of a
declared transaction fails (transaction `i`, with `i < nTx` as the loop
compares them, reached after the `i` transactions before it decoded); it
returns a node list exactly when every phase succeeded; and it always does
one or the other. -/
theorem C14_abort_on_first_failure {Tx : Type} (E : Env Tx) (b : List Byte) :
    ((∃ e, DecodeBlockMessage E b = .error e) ↔
      ((∃ e, ReadBlock b = .error e) ∨
       (∃ blk r e, ReadBlock b = .ok (blk, r) ∧ E.readVarint r = .error e) ∨
       (∃ (blk : Block) (r : List Byte) (n : Int) (r1 : List Byte) (i : Nat) (ts : List Tx)
          (ri : List Byte) (e : Err),
          ReadBlock b = .ok (blk, r) ∧ E.readVarint r = .ok (n, r1) ∧ (i : Int) < n ∧
          specTxs E i r1 = some (ts, ri) ∧ E.readTx ri = .error e))) ∧
    ((∃ out, DecodeBlockMessage E b = .ok out) ↔
      (∃ (blk : Block) (r : List Byte) (n : Int) (r1 : List Byte) (txs : List Tx)
          (r2 : List Byte),
          ReadBlock b = .ok (blk, r) ∧ E.readVarint r = .ok (n, r1) ∧
          specTxs E n.toNat r1 = some (txs, r2))) ∧
    ((∃ e, DecodeBlockMessage E b = .error e) ∨ (∃ out, DecodeBlockMessage E b = .ok out)) := by
  refine ⟨⟨?_, ?_⟩, ⟨?_, ?_⟩, ?_⟩
  · rintro ⟨e0, he0⟩
    rcases DecodeBlockMessage_cases E b with ⟨e, hR, _⟩ | ⟨blk, r, e, hR, hV, _⟩ |
      ⟨blk, r, n, r1, i, ts, ri, e, hR, hV, hi, hs, he, _, _⟩ | ⟨_, _, _, _, _, _, _, _, _, h⟩
    · exact Or.inl ⟨e, hR⟩
    · exact Or.inr (Or.inl ⟨blk, r, e, hR, hV⟩)
    · exact Or.inr (Or.inr ⟨blk, r, n, r1, i, ts, ri, e, hR, hV, hi, hs, he⟩)
    · rw [h] at he0
      cases he0
  · rintro (⟨e, hR⟩ | ⟨blk, r, e, hR, hV⟩ | ⟨blk, r, n, r1, i, ts, ri, e, hR, hV, hi, hs, he⟩)
    · exact ⟨_, DecodeBlockMessage_header_err E b e hR⟩
    · exact ⟨_, DecodeBlockMessage_count_err E b blk r e hR hV⟩
    · have hl := readTxLoop_fail E n i n.toNat 0 r1 [] ts ri e (by omega) hs he
      exact ⟨_, DecodeBlockMessage_tx_err E b blk r r1 n _ hR hV hl⟩
  · rintro ⟨out, hout⟩
    obtain ⟨blk, r, n, r1, txs, r2, hR, hV, hT, _⟩ := DecodeBlockMessage_ok_inv E b out hout
    obtain ⟨ts, hts, _⟩ := (readTxLoop_ok_iff E n n.toNat 0 r1 [] txs r2).1 hT
    exact ⟨blk, r, n, r1, ts, r2, hR, hV, hts⟩
  · rintro ⟨blk, r, n, r1, txs, r2, hR, hV, hs⟩
    have hT := (readTxLoop_ok_iff E n n.toNat 0 r1 [] _ r2).2 ⟨txs, hs, rfl⟩
    exact ⟨_, DecodeBlockMessage_of_reads E b blk r r1 r2 n _ hR hV hT⟩
  · rcases DecodeBlockMessage_cases E b with ⟨_, _, h⟩ | ⟨_, _, _, _, _, h⟩ |
      ⟨_, _, _, _, _, _, _, _, _, _, _, _, _, _, h⟩ | ⟨_, _, _, _, _, _, _, _, _, h⟩
    · exact Or.inl ⟨_, h⟩
    · exact Or.inl ⟨_, h⟩
    · exact Or.inl ⟨_, h⟩
    · exact Or.inr ⟨_, h⟩

/-- C14 on five messages: one cut inside the header, one cut before the
count, one cut inside the transactions, each giving an error; a complete one
giving a node list; and `msgHuge`, whose count is negative as an `int`, so
that no transaction read is due and a node list is returned. -/
theorem C14_abort_witness :
    (∃ e, DecodeBlockMessage (byteEnv plainCid) msgShort = .error e) ∧
    (∃ e, DecodeBlockMessage (byteEnv plainCid) msgNoCount = .error e) ∧
    (∃ e, DecodeBlockMessage (byteEnv plainCid) msgCutTx = .error e) ∧
    (∃ out, DecodeBlockMessage (byteEnv plainCid) msgFour = .ok out) ∧
    (∃ out, DecodeBlockMessage (wireEnv plainCid) msgHuge = .ok out) := by
  have hV : (wireEnv plainCid).readVarint [0xff, 0, 0, 0, 0, 0, 0, 0, 0x80]
      = .ok (-9223372036854775808, []) := rfl
  have hS : specTxs (wireEnv plainCid) (-9223372036854775808 : Int).toNat []
      = some ([], []) := rfl
  exact
    ⟨(C14_abort_on_first_failure (byteEnv plainCid) msgShort).1.2 (Or.inl ⟨_, rfl⟩),
     (C14_abort_on_first_failure (byteEnv plainCid) msgNoCount).1.2
       (Or.inr (Or.inl ⟨zeroHeader, [], _, rfl, rfl⟩)),
     (C14_abort_on_first_failure (byteEnv plainCid) msgCutTx).1.2
       (Or.inr (Or.inr ⟨zeroHeader, [3, 10], 3, [10], 1, [10], [], _, rfl, rfl, by decide,
         rfl, rfl⟩)),
     (C14_abort_on_first_failure (byteEnv plainCid) msgFour).2.1.2
       ⟨zeroHeader, [4, 10, 20, 30, 40], 4, [10, 20, 30, 40], [10, 20, 30, 40], [], rfl, rfl,
         rfl⟩,
     (C14_abort_on_first_failure (wireEnv plainCid) msgHuge).2.1.2
       ⟨zeroHeader, [0xff, 0, 0, 0, 0, 0, 0, 0, 0x80], -9223372036854775808, [], [], [], rfl,
         hV, hS⟩⟩

/-- C15: a failure of the header read is tagged "read block header" and a
failure of the count read "read tx_count". When transaction `i`, with
`i < nTx` as the loop compares them, is the first that does not decode (the
`i` before it decoded), the error is tagged with `i` and the count `nTx`; and
every failure after the count was read is of this kind. -/
theorem C15_error_tags {Tx : Type} (E : Env Tx) (b : List Byte) :
    (∀ e, ReadBlock b = .error e →
      DecodeBlockMessage E b = .error (.failedTo "read block header" e)) ∧
    (∀ blk r e, ReadBlock b = .ok (blk, r) → E.readVarint r = .error e →
      DecodeBlockMessage E b = .error (.failedTo "read tx_count" e)) ∧
    (∀ (blk : Block) (r : List Byte) (n : Int) (r1 : List Byte) (i : Nat) (ts : List Tx)
        (ri : List Byte) (e : Err),
      ReadBlock b = .ok (blk, r) → E.readVarint r = .ok (n, r1) → (i : Int) < n →
      specTxs E i r1 = some (ts, ri) → E.readTx ri = .error e →
      DecodeBlockMessage E b = .error (.failedTx i n e)) ∧
    (∀ (blk : Block) (r : List Byte) (n : Int) (r1 : List Byte) (e0 : Err),
      ReadBlock b = .ok (blk, r) → E.readVarint r = .ok (n, r1) →
      DecodeBlockMessage E b = .error e0 →
      ∃ (i : Nat) (ts : List Tx) (ri : List Byte) (e : Err), (i : Int) < n ∧
        specTxs E i r1 = some (ts, ri) ∧ ts.length = i ∧ E.readTx ri = .error e ∧
        e0 = .failedTx i n e) := by
  refine ⟨fun e hR => DecodeBlockMessage_header_err E b e hR,
    fun blk r e hR hV => DecodeBlockMessage_count_err E b blk r e hR hV, ?_, ?_⟩
  · intro blk r n r1 i ts ri e hR hV hi hs he
    have hl := readTxLoop_fail E n i n.toNat 0 r1 [] ts ri e (by omega) hs he
    rw [DecodeBlockMessage_tx_err E b blk r r1 n _ hR hV hl]
    simp
  · intro blk r n r1 e0 hR hV hD
    rcases readTxLoop_cases E n n.toNat 0 r1 [] with
      ⟨ts, r2, _, hl⟩ | ⟨j, ts, rj, e, hj, hs, he, _, hl⟩
    · rw [DecodeBlockMessage_of_reads E b blk r r1 r2 n _ hR hV hl] at hD
      cases hD
    · rw [DecodeBlockMessage_tx_err E b blk r r1 n _ hR hV hl] at hD
      injection hD with hD
      refine ⟨j, ts, rj, e, by omega, hs, specTxs_length E j r1 ts rj hs, he, ?_⟩
      rw [← hD]
      simp

/-- C15 on three messages: the errors carry "read block header",
"read tx_count" and, for a message that declares 3 transactions and holds 1,
the index 1 of 3. -/
theorem C15_error_tags_witness :
    DecodeBlockMessage (byteEnv plainCid) msgShort =
      .error (.failedTo "read block header"
        (.failedTo "read nonce" (.io "TruncatedStreamError"))) ∧
    DecodeBlockMessage (byteEnv plainCid) msgNoCount =
      .error (.failedTo "read tx_count" (.io "TruncatedStreamError")) ∧
    DecodeBlockMessage (byteEnv plainCid) msgCutTx =
      .error (.failedTx 1 3 (.io "TruncatedStreamError")) :=
  ⟨(C15_error_tags (byteEnv plainCid) msgShort).1 _ rfl,
   (C15_error_tags (byteEnv plainCid) msgNoCount).2.1 zeroHeader [] _ rfl rfl,
   (C15_error_tags (byteEnv plainCid) msgCutTx).2.2.1 zeroHeader [3, 10] 3 [10] 1 [10] [] _
     rfl rfl (by decide) rfl rfl⟩

/-! ## Further claims about `mkMerkleTree` -/

/-- C16: for every odd-length leaf list `l` of length at least 3,
`mkMerkleTree(l)` and `mkMerkleTree(l ++ [last l])` return the same sequence
of nodes, although the two lists differ; for length 1 this fails: `[a]` gives
no node and `[a, a]` gives one. -/
theorem C16_duplicated_last_leaf {Tx : Type} (E : Env Tx) (l : List (Node Tx)) (x : Node Tx)
    (hodd : l.length % 2 = 1) (h3 : 3 ≤ l.length) (hx : l.getLast? = some x) :
    mkMerkleTree E l = mkMerkleTree E (l ++ [x]) ∧ l ≠ l ++ [x] ∧
      ∀ a, mkMerkleTree E [a] = .ok [] ∧
        mkMerkleTree E [a, a] = .ok [⟨E.cid a, E.cid a⟩] := by
  refine ⟨?_, ?_, fun a => ⟨?_, mkMerkleTree_two E a a⟩⟩
  · rw [mkMerkleTree_eq_specTree, mkMerkleTree_eq_specTree,
      specTree_append_last E.cid l x hodd (by omega) hx]
  · intro heq
    have hlen := congrArg List.length heq
    rw [List.length_append, List.length_singleton] at hlen
    omega
  · rw [mkMerkleTree_eq_specTree, specTree_one]

/-- C16 at the leaves `1, 2, 3` and `1, 2, 3, 3`. -/
theorem C16_duplicated_last_leaf_witness :
    mkMerkleTree (byteEnv plainCid) leavesThree =
      mkMerkleTree (byteEnv plainCid) (leavesThree ++ [Node.tx 3]) :=
  (C16_duplicated_last_leaf (byteEnv plainCid) leavesThree (Node.tx 3) (by decide) (by decide)
    rfl).1

/-- C17: for `n ≥ 1` leaves `mkMerkleTree` returns at least `n - 1` nodes, and
exactly `n - 1` if and only if `n` is a power of two. -/
theorem C17_node_count {Tx : Type} (E : Env Tx) (txs : List (Node Tx))
    (h : 1 ≤ txs.length) :
    ∃ ts, mkMerkleTree E txs = .ok ts ∧ txs.length - 1 ≤ ts.length ∧
      (ts.length = txs.length - 1 ↔ ∃ k, txs.length = 2 ^ k) :=
  ⟨_, mkMerkleTree_eq_specTree E txs, specTree_length E.cid txs.length txs rfl h⟩

/-- C17 at three leaves: three nodes, more than `3 - 1`. -/
theorem C17_node_count_witness :
    mkMerkleTree (byteEnv plainCid) leavesThree = .ok treeThree ∧
      leavesThree.length - 1 ≤ treeThree.length ∧
      (treeThree.length = leavesThree.length - 1 ↔ ∃ k, leavesThree.length = 2 ^ k) := by
  obtain ⟨ts, h1, h2, h3⟩ := C17_node_count (byteEnv plainCid) leavesThree (by decide)
  have h0 : mkMerkleTree (byteEnv plainCid) leavesThree = .ok treeThree := rfl
  rw [h0] at h1
  injection h1 with h1
  subst h1
  exact ⟨h0, h2, h3⟩

/-- C18: every `Left` and `Right` link of every node returned by
`mkMerkleTree` is the address of an input leaf or of a node standing strictly
earlier in the returned list. -/
theorem C18_links_point_backwards {Tx : Type} (E : Env Tx) (txs : List (Node Tx))
    (ts : List TxTree) (h : mkMerkleTree E txs = .ok ts) :
    ∀ (j : Nat) (t : TxTree), ts[j]? = some t → ∀ c, c = t.Left ∨ c = t.Right →
      (∃ x ∈ txs, c = E.cid x) ∨
      (∃ i u, i < j ∧ ts[i]? = some u ∧ c = E.cid (Node.tree u)) := by
  rw [mkMerkleTree_eq_specTree] at h
  injection h with h
  subst h
  exact specTree_links E.cid txs.length txs (Nat.le_refl _)

/-- C18 at the root above three leaves: its left link addresses a leaf or an
earlier node. -/
theorem C18_links_witness :
    (∃ x ∈ leavesThree, plainCid (.tree ⟨plainCid (.tx 1), plainCid (.tx 2)⟩) = plainCid x) ∨
    (∃ i u, i < 2 ∧ treeThree[i]? = some u ∧
      plainCid (.tree ⟨plainCid (.tx 1), plainCid (.tx 2)⟩) = plainCid (Node.tree u)) :=
  C18_links_point_backwards (byteEnv plainCid) leavesThree treeThree rfl 2 _ rfl _ (Or.inl rfl)

/-- C19: `mkMerkleTree` is total. It returns a node list on every input,
whatever budget above `len(txs)` the outer loop is given; and in every
iteration on a layer of `m ≥ 2` elements the padding and the accesses
`layer[2i]`, `layer[2i+1]` for `i < len(layer)/2` are in range (the padded
layer has even length) and the next layer has `⌈m/2⌉ < m` elements. -/
theorem C19_mkMerkleTree_total {Tx : Type} (E : Env Tx) (txs : List (Node Tx)) :
    (∃ ts, mkMerkleTree E txs = .ok ts) ∧
    (∀ fuel, txs.length < fuel → mkMerkleTreeLoop E.cid fuel txs [] = mkMerkleTree E txs) ∧
    (∀ layer : List (Node Tx), 1 < layer.length →
      ∃ padded pairs next, padLayer layer = .ok padded ∧ padded.length % 2 = 0 ∧
        (∀ i, i < padded.length / 2 →
          (padded[i * 2]?).isSome = true ∧ (padded[i * 2 + 1]?).isSome = true) ∧
        (∀ acc, pairLoop E.cid padded (padded.length / 2) 0 acc [] =
          .ok (acc ++ pairs, next)) ∧
        next.length = (layer.length + 1) / 2 ∧ next.length < layer.length) := by
  refine ⟨⟨_, mkMerkleTree_eq_specTree E txs⟩, ?_, ?_⟩
  · intro fuel hf
    rw [mkMerkleTreeLoop_eq E.cid fuel txs [] hf, mkMerkleTree_eq_specTree, List.nil_append]
  · intro layer hl
    have hp := specPad_length layer
    refine ⟨specPad layer, specPairs E.cid (specPad layer),
      (specPairs E.cid (specPad layer)).map Node.tree, padLayer_eq_specPad layer,
      by omega, ?_, ?_, ?_, ?_⟩
    · intro i hi
      have h0 : i * 2 < (specPad layer).length := by omega
      have h1 : i * 2 + 1 < (specPad layer).length := by omega
      rw [List.getElem?_eq_getElem h0, List.getElem?_eq_getElem h1]
      exact ⟨rfl, rfl⟩
    · intro acc
      rw [pairLoop_eq E.cid (specPad layer) _ 0 acc [] (by omega)]
      have hall : List.take ((specPad layer).length / 2) (specPairs E.cid (specPad layer)) =
          specPairs E.cid (specPad layer) :=
        List.take_of_length_le (by rw [specPairs_length])
      simp only [List.drop_zero, hall, List.nil_append]
    · rw [List.length_map, specPairs_length]
      omega
    · rw [List.length_map, specPairs_length]
      omega

/-! ## Further claims about `DecodeBlockMessage` -/

/-- C20: on an input shorter than 80 bytes the slice `b[:80]` would be out of
range, but the header read fails first and `DecodeBlockMessage` returns that
error; the slice is taken only after `ReadBlock` returned, hence with
`len(b) ≥ 80`, and the decoder does not panic. -/
theorem C20_slice_in_range {Tx : Type} (E : Env Tx) (b : List Byte) :
    (b.length < 80 → sliceTo b 80 = .panic ∧
      ∃ e, ReadBlock b = .error e ∧
        DecodeBlockMessage E b = .error (.failedTo "read block header" e)) ∧
    (∀ blk r, ReadBlock b = .ok (blk, r) →
      80 ≤ b.length ∧ sliceTo b 80 = .ok (b.take 80)) ∧
    DecodeBlockMessage E b ≠ .panic := by
  refine ⟨fun h => ⟨?_, ?_⟩, fun blk r hR => ?_, DecodeBlockMessage_ne_panic E b⟩
  · have hn : ¬ 80 ≤ b.length := by omega
    simp [sliceTo, hn]
  · obtain ⟨e, he⟩ := ReadBlock_short b h
    exact ⟨e, he, DecodeBlockMessage_header_err E b e he⟩
  · have h80 := ReadBlock_ok_length b _ hR
    exact ⟨h80, by simp [sliceTo, h80]⟩

/-- C20 at the empty input and at a 79-byte input. -/
theorem C20_slice_in_range_witness :
    (∃ e, DecodeBlockMessage (byteEnv plainCid) [] = .error e) ∧
    (∃ e, DecodeBlockMessage (byteEnv plainCid) msgShort = .error e) := by
  obtain ⟨_, e1, _, h1⟩ := (C20_slice_in_range (byteEnv plainCid) []).1 (by decide)
  obtain ⟨_, e2, _, h2⟩ := (C20_slice_in_range (byteEnv plainCid) msgShort).1 (by decide)
  exact ⟨⟨_, h1⟩, ⟨_, h2⟩⟩

end Ipldbtc
